import Mathlib

/-!
# Verification of the sonde protocol-ingestion engine

A shallow embedding of the decoding/caching/buffering core of the
`iammatthias/sonde` repository, together with proofs of the specified
properties.

Embedded components:

* `Sonde.LRU` — the `LRUCache` class of `src/lib/og-templates.tsx`
  (module `memo`): a TTL + LRU cache backed by a JavaScript `Map`,
  modelled as an insertion-ordered association list.
* `Sonde.Coalesce` — the `memoizeAsync` in-flight request coalescer of
  the same module, modelled as a state machine over call/settle events.
* `Sonde.Ring` — the `EventBuffer` ring buffer of `src/lib/websocket.ts`.
* `Sonde.Jet` — `parseJetstreamEvent` of `src/lib/identity.ts` over a
  JSON value model.
* `Sonde.Tid` — `tidToDate` / `isTid` of `src/lib/labels.ts`.
* `Sonde.Detect` — `detectEncoding` and its helper predicates from the
  record-decoding module.
* `Sonde.Cbor` — `findCborBoundary` and the slicing step of
  `decodeFirehoseFrame` from the firehose module, modelled as a
  fuel-indexed walker faithful to the JavaScript semantics (including
  32-bit signed shifts and out-of-range `Uint8Array` reads).
-/

namespace Sonde

/-! ## LRU cache with TTL (`LRUCache` from the memo module)

The JavaScript class stores entries in a `Map<K, {value, expires}>` and
relies on `Map` insertion order for LRU eviction.  We model the map as an
insertion-ordered list of `(key, value, expires)` triples, oldest first;
`Date.now()` becomes an explicit `now : Int` argument. -/

structure LRU (K V : Type) where
  entries : List (K × V × Int)
  maxSize : Nat
  ttl : Int

variable {K V : Type} [DecidableEq K]

namespace LRU

/-- Keys of the cache in insertion order. -/
def keys (c : LRU K V) : List K := c.entries.map (·.1)

/-- `Map.get`: first (and in a real `Map`, only) binding of a key. -/
def lookup (c : LRU K V) (k : K) : Option (V × Int) :=
  (c.entries.find? (fun e => decide (e.1 = k))).map (·.2)

/-- `Map.delete`: remove the binding of `k` (no-op when absent). -/
def eraseKey (c : LRU K V) (k : K) : LRU K V :=
  { c with entries := c.entries.eraseP (fun e => decide (e.1 = k)) }

/-- `cache.size`. -/
def size (c : LRU K V) : Nat := c.entries.length

/-- `LRUCache.get`: miss on absence, expiry check (evicting), and
move-to-most-recently-used on a hit.  Returns the result together with
the updated cache. -/
def get (now : Int) (c : LRU K V) (k : K) : Option V × LRU K V :=
  match c.lookup k with
  | none => (none, c)
  | some (v, e) =>
    if now > e then (none, c.eraseKey k)
    else (some v, { c with entries := (c.eraseKey k).entries ++ [(k, v, e)] })

/-- `LRUCache.set`: delete the key to reset its position, evict the
oldest entry when still at capacity, then append the fresh binding. -/
def set (now : Int) (c : LRU K V) (k : K) (v : V) : LRU K V :=
  let afterDelete := (c.eraseKey k).entries
  let afterEvict :=
    if afterDelete.length ≥ c.maxSize then afterDelete.tail else afterDelete
  { c with entries := afterEvict ++ [(k, v, now + c.ttl)] }

/-- `LRUCache.has`: presence check that also honours TTL expiry,
evicting an expired entry. -/
def has (now : Int) (c : LRU K V) (k : K) : Bool × LRU K V :=
  match c.lookup k with
  | none => (false, c)
  | some (_, e) => if now > e then (false, c.eraseKey k) else (true, c)

end LRU

namespace LRU

/-- After erasing `k` from a cache with duplicate-free keys, `k` is gone. -/
theorem not_mem_map_fst_eraseP (l : List (K × V × Int)) (k : K)
    (hn : (l.map (·.1)).Nodup) :
    k ∉ ((l.eraseP (fun e => decide (e.1 = k))).map (·.1)) := by
  induction l with
  | nil => simp
  | cons e rest ih =>
    rw [List.map_cons] at hn
    rcases List.nodup_cons.mp hn with ⟨he, hrest⟩
    by_cases hk : e.1 = k
    · rw [List.eraseP_cons_of_pos (by simpa using hk)]
      subst hk; simpa using he
    · rw [List.eraseP_cons_of_neg (by simpa using hk)]
      simp only [List.map_cons, List.mem_cons]
      rintro (h1 | h2)
      · exact hk h1.symm
      · exact ih hrest h2

theorem keys_eraseKey (c : LRU K V) (k : K) (hn : c.keys.Nodup) :
    k ∉ (c.eraseKey k).keys :=
  not_mem_map_fst_eraseP c.entries k hn

/-- Looking up `k` in `l ++ [(k, v, e)]` finds the appended binding when
`k` does not occur in `l`. -/
theorem find?_append_last (l : List (K × V × Int)) (k : K) (v : V) (e : Int)
    (hl : k ∉ l.map (·.1)) :
    (l ++ [(k, v, e)]).find? (fun x => decide (x.1 = k)) = some (k, v, e) := by
  rw [List.find?_append]
  have h1 : l.find? (fun x => decide (x.1 = k)) = none := by
    rw [List.find?_eq_none]
    intro x hx
    simp only [decide_eq_true_eq]
    intro hxk
    exact hl (List.mem_map.mpr ⟨x, hx, hxk⟩)
  simp [h1, List.find?_cons]

/-- A successful lookup exhibits a member entry whose key is `k`. -/
theorem lookup_mem {c : LRU K V} {k : K} {v : V} {e : Int}
    (h : c.lookup k = some (v, e)) : (k, v, e) ∈ c.entries := by
  unfold lookup at h
  rcases Option.map_eq_some'.mp h with ⟨a, ha, hae⟩
  have hk : a.1 = k := by simpa using List.find?_some ha
  have hm := List.mem_of_find?_eq_some ha
  have hav : a = (k, v, e) := by
    rcases a with ⟨a1, a2⟩
    simp only at hk hae
    rw [hk, hae]
  rw [hav] at hm; exact hm

/-- The entries after a `set` consist of a `k`-free list followed by the
fresh binding of `k`. -/
theorem set_entries_split (c : LRU K V) (k : K) (v : V) (now : Int)
    (hn : c.keys.Nodup) :
    ∃ l, (c.set now k v).entries = l ++ [(k, v, now + c.ttl)] ∧
      k ∉ l.map (·.1) := by
  have hkd : k ∉ ((c.eraseKey k).entries.map (·.1)) := keys_eraseKey c k hn
  unfold set
  by_cases hif : (c.eraseKey k).entries.length ≥ c.maxSize
  · refine ⟨(c.eraseKey k).entries.tail, by simp [hif], ?_⟩
    intro hmem
    exact hkd (List.map_subset _ (List.tail_subset _) hmem)
  · exact ⟨(c.eraseKey k).entries, by simp [hif], hkd⟩

/-- Looking up the key just written by `set` yields the fresh binding. -/
theorem lookup_set (c : LRU K V) (k : K) (v : V) (now : Int)
    (hn : c.keys.Nodup) :
    (c.set now k v).lookup k = some (v, now + c.ttl) := by
  rcases set_entries_split c k v now hn with ⟨l, hl, hfree⟩
  unfold lookup
  rw [hl, find?_append_last l k v (now + c.ttl) hfree]
  rfl

/-- Erasing the key again removes exactly the appended binding. -/
theorem eraseKey_set (c : LRU K V) (k : K) (v : V) (now : Int)
    (hn : c.keys.Nodup) :
    ∃ l, (c.set now k v).entries = l ++ [(k, v, now + c.ttl)] ∧
      ((c.set now k v).eraseKey k).entries = l ∧ k ∉ l.map (·.1) := by
  rcases set_entries_split c k v now hn with ⟨l, hl, hfree⟩
  refine ⟨l, hl, ?_, hfree⟩
  show ((c.set now k v).entries.eraseP (fun e => decide (e.1 = k))) = l
  rw [hl, List.eraseP_append_right]
  · simp
  · intro b hb
    simp only [decide_eq_true_eq]
    intro hbk
    exact hfree (List.mem_map.mpr ⟨b, hb, hbk⟩)

end LRU

/-- C5: an entry written at time `storedAt` is, at any time
`t > storedAt + ttl`, reported as a miss by `get` (which evicts it); a
subsequent `has` is `false`, and `has` itself also treats the
expired-but-present key as a miss and evicts it. -/
theorem claim_C5_ttl_expiry {K V : Type} [DecidableEq K]
    (c : LRU K V) (k : K) (v : V) (storedAt t : Int)
    (hn : c.keys.Nodup) (ht : t > storedAt + c.ttl) :
    ((c.set storedAt k v).get t k).1 = none ∧
    ((c.set storedAt k v).get t k).2 = (c.set storedAt k v).eraseKey k ∧
    (((c.set storedAt k v).get t k).2.has t k).1 = false ∧
    (c.set storedAt k v).has t k = (false, (c.set storedAt k v).eraseKey k) := by
  have hl := LRU.lookup_set c k v storedAt hn
  have hget : (c.set storedAt k v).get t k =
      (none, (c.set storedAt k v).eraseKey k) := by
    unfold LRU.get
    rw [hl]
    simp only [show (c.set storedAt k v).ttl = c.ttl from rfl] at *
    rw [if_pos ht]
  refine ⟨by rw [hget], by rw [hget], ?_, ?_⟩
  · rcases LRU.eraseKey_set c k v storedAt hn with ⟨l, _, herase, hfree⟩
    have hfind : l.find? (fun e => decide (e.1 = k)) = none := by
      rw [List.find?_eq_none]
      intro x hx
      simp only [decide_eq_true_eq]
      intro hxk
      exact hfree (List.mem_map.mpr ⟨x, hx, hxk⟩)
    have : ((c.set storedAt k v).eraseKey k).lookup k = none := by
      unfold LRU.lookup
      rw [herase, hfind]
      rfl
    rw [hget]
    unfold LRU.has
    rw [this]
  · unfold LRU.has
    rw [hl]
    simp only [show (c.set storedAt k v).ttl = c.ttl from rfl] at *
    rw [if_pos ht]

/-- C5 witness: a concrete expired entry behaves as the theorem states. -/
theorem claim_C5_witness :
    (((⟨[], 10, 100⟩ : LRU Nat Nat).set 0 1 2).get 101 1).1 = none ∧
    (((⟨[], 10, 100⟩ : LRU Nat Nat).set 0 1 2).get 101 1).2 =
      ((⟨[], 10, 100⟩ : LRU Nat Nat).set 0 1 2).eraseKey 1 ∧
    ((((⟨[], 10, 100⟩ : LRU Nat Nat).set 0 1 2).get 101 1).2.has 101 1).1 = false ∧
    ((⟨[], 10, 100⟩ : LRU Nat Nat).set 0 1 2).has 101 1 =
      (false, ((⟨[], 10, 100⟩ : LRU Nat Nat).set 0 1 2).eraseKey 1) :=
  claim_C5_ttl_expiry (⟨[], 10, 100⟩ : LRU Nat Nat) 1 2 0 101 (by decide)
    (by decide)

/-- C6 counterexample: with `maxSize = 0` the capacity invariant is not
preserved — `set` on an empty cache finds no first key to evict and the
size grows to `1 > 0`.  So the invariant does not hold across every
operation for every constructible cache. -/
theorem claim_C6_counterexample :
    (⟨[], 0, 50⟩ : LRU Nat Nat).size ≤ (⟨[], 0, 50⟩ : LRU Nat Nat).maxSize ∧
    ¬ (((⟨[], 0, 50⟩ : LRU Nat Nat).set 0 1 2).size ≤
        (⟨[], 0, 50⟩ : LRU Nat Nat).maxSize) := by
  constructor
  · decide
  · show ¬ (1 ≤ 0)
    decide

/-- C6 (amended to `1 ≤ maxSize`): every operation preserves
`size ≤ maxSize`; a `set` of a new key at capacity evicts exactly the
first (least-recently-touched) entry; a `get` hit moves the key to the
most-recently-used position, as does `set`. -/
theorem claim_C6_lru_invariants {K V : Type} [DecidableEq K]
    (c : LRU K V) (k : K) (v : V) (now : Int)
    (hm : 1 ≤ c.maxSize) (hs : c.size ≤ c.maxSize) :
    (c.set now k v).size ≤ c.maxSize ∧
    ((c.get now k).2).size ≤ c.maxSize ∧
    ((c.has now k).2).size ≤ c.maxSize ∧
    (k ∉ c.keys → c.size = c.maxSize →
      (c.set now k v).entries = c.entries.tail ++ [(k, v, now + c.ttl)]) ∧
    (∀ v0 e0, c.lookup k = some (v0, e0) → now ≤ e0 →
      c.get now k = (some v0,
        { c with entries := (c.eraseKey k).entries ++ [(k, v0, e0)] })) ∧
    (c.set now k v).entries.getLast? = some (k, v, now + c.ttl) := by
  have hdel : (c.eraseKey k).entries.length ≤ c.entries.length :=
    List.length_eraseP_le _
  refine ⟨?_, ?_, ?_, ?_, ?_, ?_⟩
  · show ((if (c.eraseKey k).entries.length ≥ c.maxSize then
        (c.eraseKey k).entries.tail else (c.eraseKey k).entries) ++
        [(k, v, now + c.ttl)]).length ≤ c.maxSize
    by_cases hif : (c.eraseKey k).entries.length ≥ c.maxSize
    · rw [if_pos hif]
      have heq : (c.eraseKey k).entries.length = c.maxSize :=
        Nat.le_antisymm (le_trans hdel hs) hif
      cases hent : (c.eraseKey k).entries with
      | nil => rw [hent] at heq; simp at heq; omega
      | cons e rest =>
        rw [hent] at heq
        simp only [List.length_cons] at heq
        simp only [List.tail_cons, List.length_append, List.length_cons,
          List.length_nil]
        omega
    · rw [if_neg hif]
      simp only [List.length_append, List.length_cons, List.length_nil]
      omega
  · unfold LRU.get
    cases hl : c.lookup k with
    | none => exact hs
    | some ve =>
      rcases ve with ⟨v0, e0⟩
      dsimp only
      by_cases hexp : now > e0
      · rw [if_pos hexp]
        exact le_trans hdel hs
      · rw [if_neg hexp]
        show ((c.eraseKey k).entries ++ [(k, v0, e0)]).length ≤ c.maxSize
        have hmem : (k, v0, e0) ∈ c.entries := LRU.lookup_mem hl
        have hlen1 : (c.entries.eraseP (fun e => decide (e.1 = k))).length + 1 =
            c.entries.length := List.length_eraseP_add_one hmem (by simp)
        have hs2 : c.entries.length ≤ c.maxSize := hs
        have hd2 : (c.eraseKey k).entries.length =
            (c.entries.eraseP (fun e => decide (e.1 = k))).length := rfl
        simp only [List.length_append, List.length_cons, List.length_nil]
        omega
  · unfold LRU.has
    cases hl : c.lookup k with
    | none => exact hs
    | some ve =>
      rcases ve with ⟨v0, e0⟩
      dsimp only
      by_cases hexp : now > e0
      · rw [if_pos hexp]
        exact le_trans hdel hs
      · rw [if_neg hexp]
        exact hs
  · intro hnk hcap
    have hfix : (c.eraseKey k).entries = c.entries := by
      unfold LRU.eraseKey
      apply List.eraseP_of_forall_not
      intro a ha
      simp only [decide_eq_true_eq]
      intro hak
      exact hnk (List.mem_map.mpr ⟨a, ha, hak⟩)
    show ((if (c.eraseKey k).entries.length ≥ c.maxSize then
        (c.eraseKey k).entries.tail else (c.eraseKey k).entries) ++
        [(k, v, now + c.ttl)]) = c.entries.tail ++ [(k, v, now + c.ttl)]
    rw [hfix, if_pos (by rw [show c.entries.length = c.size from rfl, hcap])]
  · intro v0 e0 hl hle
    unfold LRU.get
    rw [hl]
    dsimp only
    rw [if_neg (not_lt.mpr hle)]
  · exact List.getLast?_concat _

/-- C6 witness: a concrete cache exercising the size bound, the
exact-eviction clause and the move-to-front clause. -/
theorem claim_C6_witness :
    ((⟨[(1, 10, 3), (2, 20, 4)], 2, 10⟩ : LRU Nat Nat).set 0 6 9).size ≤
      (⟨[(1, 10, 3), (2, 20, 4)], 2, 10⟩ : LRU Nat Nat).maxSize ∧
    ((⟨[(1, 10, 3), (2, 20, 4)], 2, 10⟩ : LRU Nat Nat).set 0 6 9).entries =
      ([(1, 10, 3), (2, 20, 4)] : List (Nat × Nat × Int)).tail ++ [(6, 9, 10)] ∧
    (⟨[(1, 10, 3), (2, 20, 4)], 2, 10⟩ : LRU Nat Nat).get 0 1 =
      (some 10, ⟨[(2, 20, 4), (1, 10, 3)], 2, 10⟩) := by
  have h := claim_C6_lru_invariants
    (⟨[(1, 10, 3), (2, 20, 4)], 2, 10⟩ : LRU Nat Nat) 6 9 0
    (by decide) (by decide)
  have h1 := claim_C6_lru_invariants
    (⟨[(1, 10, 3), (2, 20, 4)], 2, 10⟩ : LRU Nat Nat) 1 10 0
    (by decide) (by decide)
  refine ⟨h.1, ?_, ?_⟩
  · have h4 := h.2.2.2.1 (by decide) (by decide)
    simpa using h4
  · have h5 := h1.2.2.2.2.1 10 3 (by decide) (by decide)
    simpa using h5

/-- C10: setting a key that is already present, with the cache at
capacity, evicts nothing: the entry set is the old one with `k` rebound,
moved to the most-recently-used position and its TTL restarted; the key
set is unchanged up to permutation and the size is unchanged. -/
theorem claim_C10_set_existing_no_evict {K V : Type} [DecidableEq K]
    (c : LRU K V) (k : K) (v : V) (now : Int)
    (hn : c.keys.Nodup) (hk : k ∈ c.keys) (hs : c.size = c.maxSize) :
    (c.set now k v).entries = (c.eraseKey k).entries ++ [(k, v, now + c.ttl)] ∧
    (c.set now k v).keys.Perm c.keys ∧
    (c.set now k v).size = c.size ∧
    (c.set now k v).lookup k = some (v, now + c.ttl) ∧
    (c.set now k v).entries.getLast? = some (k, v, now + c.ttl) := by
  rcases List.mem_map.mp hk with ⟨a, hamem, hak⟩
  have hpa : (fun e => decide (e.1 = k)) a = true := by simpa using hak
  have hlen : (c.entries.eraseP (fun e => decide (e.1 = k))).length + 1 =
      c.entries.length := List.length_eraseP_add_one hamem hpa
  have hpos : 1 ≤ c.entries.length := by
    cases hent : c.entries with
    | nil => rw [hent] at hamem; simp at hamem
    | cons x xs => simp
  have hif : ¬ ((c.eraseKey k).entries.length ≥ c.maxSize) := by
    show ¬ ((c.entries.eraseP (fun e => decide (e.1 = k))).length ≥ c.maxSize)
    have hsz : c.entries.length = c.maxSize := hs
    omega
  have hset : (c.set now k v).entries =
      (c.eraseKey k).entries ++ [(k, v, now + c.ttl)] := by
    show ((if (c.eraseKey k).entries.length ≥ c.maxSize then
        (c.eraseKey k).entries.tail else (c.eraseKey k).entries) ++
        [(k, v, now + c.ttl)]) = _
    rw [if_neg hif]
  refine ⟨hset, ?_, ?_, ?_, ?_⟩
  · rcases @List.exists_of_eraseP _ (fun e => decide (e.1 = k)) c.entries a
      hamem hpa with ⟨b, l₁, l₂, hnotp, hpb, hsplit, hres⟩
    have hbk : b.1 = k := by simpa using hpb
    show ((c.set now k v).entries.map (·.1)).Perm (c.entries.map (·.1))
    have hek : (c.eraseKey k).entries = l₁ ++ l₂ := hres
    rw [hset, List.map_append, hek, hsplit]
    simp only [List.map_append, List.map_cons, List.map_nil]
    have h1 := List.perm_append_singleton k (l₁.map (·.1) ++ l₂.map (·.1))
    have h2 : (k :: (l₁.map (·.1) ++ l₂.map (·.1))).Perm
        (l₁.map (·.1) ++ k :: l₂.map (·.1)) := List.perm_middle.symm
    rw [hbk]
    exact h1.trans h2
  · rw [show (c.set now k v).size = (c.set now k v).entries.length from rfl,
      hset]
    simp only [List.length_append, List.length_cons, List.length_nil]
    show (c.entries.eraseP (fun e => decide (e.1 = k))).length + 1 = c.size
    exact hlen
  · exact LRU.lookup_set c k v now hn
  · rw [hset]
    exact List.getLast?_concat _

/-- C10 witness: rebinding key `1` in a full two-entry cache evicts
nothing and moves `1` to the most-recently-used slot. -/
theorem claim_C10_witness :
    ((⟨[(1, 10, 3), (2, 20, 4)], 2, 7⟩ : LRU Nat Nat).set 5 1 99).entries =
      ((⟨[(1, 10, 3), (2, 20, 4)], 2, 7⟩ : LRU Nat Nat).eraseKey 1).entries ++
        [(1, 99, 12)] ∧
    ((⟨[(1, 10, 3), (2, 20, 4)], 2, 7⟩ : LRU Nat Nat).set 5 1 99).keys.Perm
      (⟨[(1, 10, 3), (2, 20, 4)], 2, 7⟩ : LRU Nat Nat).keys ∧
    ((⟨[(1, 10, 3), (2, 20, 4)], 2, 7⟩ : LRU Nat Nat).set 5 1 99).size =
      (⟨[(1, 10, 3), (2, 20, 4)], 2, 7⟩ : LRU Nat Nat).size ∧
    ((⟨[(1, 10, 3), (2, 20, 4)], 2, 7⟩ : LRU Nat Nat).set 5 1 99).lookup 1 =
      some (99, 12) ∧
    ((⟨[(1, 10, 3), (2, 20, 4)], 2, 7⟩ : LRU Nat Nat).set 5 1 99).entries.getLast? =
      some (1, 99, 12) := by
  have h := claim_C10_set_existing_no_evict
    (⟨[(1, 10, 3), (2, 20, 4)], 2, 7⟩ : LRU Nat Nat) 1 99 5
    (by decide) (by decide) (by decide)
  simpa using h

/-! ## In-flight request coalescing (`memoizeAsync`)

The wrapper keeps an `LRUCache` of settled results and a
`Map<key, Promise>` of in-flight computations.  JavaScript runs the
wrapper body and the promise reactions atomically on one thread, so the
behaviour is faithfully described by a state machine whose events are:
a call arriving (`call k now`), and the settlement of the underlying
computation for `k` (`settle k v success now`, executing the `.then` /
`.catch` handler installed by the wrapper).  `started` counts how many
underlying computations (`fn(...args)` invocations) have been started. -/

structure CoState (K V : Type) where
  cache : LRU K V
  inflight : List K
  started : Nat

inductive CoEvent (K V : Type) where
  | call (k : K) (now : Int)
  | settle (k : K) (v : V) (success : Bool) (now : Int)

/-- One step of the coalescer: the body of the memoized function for a
`call`, and the `.then`/`.catch` handlers for a `settle`. -/
def coStep {K V : Type} [DecidableEq K] (s : CoState K V) :
    CoEvent K V → CoState K V
  | .call k now =>
    let (res, c1) := s.cache.get now k
    if res.isSome then { s with cache := c1 }
    else if k ∈ s.inflight then { s with cache := c1 }
    else { cache := c1, inflight := k :: s.inflight, started := s.started + 1 }
  | .settle k v success now =>
    if success then
      { s with cache := s.cache.set now k v, inflight := s.inflight.erase k }
    else { s with inflight := s.inflight.erase k }

/-- A key absent from the cache entries stays a `get` miss that leaves
the cache unchanged. -/
theorem lru_get_not_mem {K V : Type} [DecidableEq K] (c : LRU K V) (k : K)
    (now : Int) (hk : k ∉ c.keys) : c.get now k = (none, c) := by
  have hl : c.lookup k = none := by
    unfold LRU.lookup
    rw [List.find?_eq_none.mpr]
    · rfl
    · intro x hx
      simp only [decide_eq_true_eq]
      intro hxk
      exact hk (List.mem_map.mpr ⟨x, hx, hxk⟩)
  unfold LRU.get
  rw [hl]

/-- C7: a second call with the same key issued before the first settles
starts no second computation; the key is removed from the in-flight map
both when the computation settles successfully (its value entering the
cache, the count of started computations unchanged) and when it fails,
and after a failure the next call starts a fresh computation rather than
replaying the error. -/
theorem claim_C7_coalescer {K V : Type} [DecidableEq K]
    (s : CoState K V) (k : K) (v : V) (n1 n2 n3 n4 : Int)
    (hc : k ∉ s.cache.keys) (hi : k ∉ s.inflight) :
    let s1 := coStep s (.call k n1)
    let s2 := coStep s1 (.call k n2)
    let t3 := coStep s2 (.settle k v true n3)
    let s3 := coStep s2 (.settle k v false n3)
    let s4 := coStep s3 (.call k n4)
    s1.started = s.started + 1 ∧
    s2 = s1 ∧
    t3.inflight = s.inflight ∧ t3.cache = s.cache.set n3 k v ∧
    t3.started = s.started + 1 ∧
    s3.inflight = s.inflight ∧ s3.cache = s.cache ∧
    s4.started = s.started + 2 := by
  intro s1 s2 t3 s3 s4
  have hg1 : s.cache.get n1 k = (none, s.cache) := lru_get_not_mem _ _ _ hc
  have hs1 : s1 = ⟨s.cache, k :: s.inflight, s.started + 1⟩ := by
    show coStep s (.call k n1) = _
    simp only [coStep, hg1]
    simp [hi]
  have hg2 : s.cache.get n2 k = (none, s.cache) := lru_get_not_mem _ _ _ hc
  have hs2 : s2 = s1 := by
    show coStep s1 (.call k n2) = s1
    rw [hs1]
    simp only [coStep, hg2]
    simp [List.mem_cons]
  have ht3 : t3 = ⟨s.cache.set n3 k v, s.inflight, s.started + 1⟩ := by
    show coStep s2 (.settle k v true n3) = _
    rw [hs2, hs1]
    simp only [coStep]
    simp [List.erase_cons_head]
  have hs3 : s3 = ⟨s.cache, s.inflight, s.started + 1⟩ := by
    show coStep s2 (.settle k v false n3) = _
    rw [hs2, hs1]
    simp only [coStep]
    simp [List.erase_cons_head, List.erase_of_not_mem hi]
  have hg4 : s.cache.get n4 k = (none, s.cache) := lru_get_not_mem _ _ _ hc
  have hs4 : s4.started = s.started + 2 := by
    show (coStep s3 (.call k n4)).started = s.started + 2
    rw [hs3]
    simp only [coStep, hg4]
    simp [hi]
  refine ⟨by rw [hs1], hs2, by rw [ht3], by rw [ht3], by rw [ht3],
    by rw [hs3], by rw [hs3], hs4⟩

/-- C7 witness: the concrete event traces (both settlement outcomes) on
an empty coalescer. -/
theorem claim_C7_witness :
    let s0 : CoState Nat Nat := ⟨⟨[], 10, 100⟩, [], 0⟩
    let s1 := coStep s0 (.call 1 0)
    let s2 := coStep s1 (.call 1 1)
    let t3 := coStep s2 (.settle 1 5 true 2)
    let s3 := coStep s2 (.settle 1 5 false 2)
    let s4 := coStep s3 (.call 1 3)
    s1.started = 0 + 1 ∧ s2 = s1 ∧
    t3.inflight = ([] : List Nat) ∧
    t3.cache = (⟨[], 10, 100⟩ : LRU Nat Nat).set 2 1 5 ∧
    t3.started = 0 + 1 ∧
    s3.inflight = ([] : List Nat) ∧ s3.cache = (⟨[], 10, 100⟩ : LRU Nat Nat) ∧
    s4.started = 0 + 2 :=
  claim_C7_coalescer (⟨⟨[], 10, 100⟩, [], 0⟩ : CoState Nat Nat) 1 5 0 1 2 3
    (by decide) (by decide)

/-! ## Bounded event buffer (`EventBuffer` from websocket.ts)

The class owns a fixed JavaScript array plus `head` (next write), `tail`
(oldest item), `count` and `maxSize`.  A hole of the backing array (a
slot never written) is the JavaScript `undefined`, modelled as `none`. -/

structure EventBuffer (T : Type) where
  buffer : List (Option T)
  head : Nat
  tail : Nat
  count : Nat
  maxSize : Nat

namespace EventBuffer

/-- `new EventBuffer(maxSize)`: `new Array(maxSize)` of holes. -/
def empty (T : Type) (maxSize : Nat) : EventBuffer T :=
  ⟨List.replicate maxSize none, 0, 0, 0, maxSize⟩

/-- `EventBuffer.push`: write at `head`, advance it; grow `count` when
below capacity, otherwise advance `tail` over the overwritten oldest. -/
def push {T : Type} (b : EventBuffer T) (event : T) : EventBuffer T :=
  let buf := b.buffer.set b.head (some event)
  let hd := (b.head + 1) % b.maxSize
  if b.count < b.maxSize then ⟨buf, hd, b.tail, b.count + 1, b.maxSize⟩
  else ⟨buf, hd, (b.tail + 1) % b.maxSize, b.count, b.maxSize⟩

/-- `EventBuffer.pushMany`: sequential pushes. -/
def pushMany {T : Type} (b : EventBuffer T) (events : List T) : EventBuffer T :=
  events.foldl push b

/-- `EventBuffer.getAll`: the retained items oldest-first, reading slot
`(tail + i) % maxSize` for `i < count`. -/
def getAll {T : Type} (b : EventBuffer T) : List (Option T) :=
  (List.range b.count).map
    (fun i => b.buffer.getD ((b.tail + i) % b.maxSize) none)

end EventBuffer

/-- The full inductive invariant of the ring buffer after pushing `xs`
into an empty buffer of positive capacity `N`: the cursors are the push
count modulo `N` and the window of the retained last `min |xs| N` items
sits at `tail + i (mod N)` in push order. -/
theorem pushMany_invariant {T : Type} (N : Nat) (hN : 0 < N) (xs : List T) :
    (EventBuffer.pushMany (EventBuffer.empty T N) xs).maxSize = N ∧
    (EventBuffer.pushMany (EventBuffer.empty T N) xs).buffer.length = N ∧
    (EventBuffer.pushMany (EventBuffer.empty T N) xs).count = min xs.length N ∧
    (EventBuffer.pushMany (EventBuffer.empty T N) xs).head = xs.length % N ∧
    (EventBuffer.pushMany (EventBuffer.empty T N) xs).tail =
      (xs.length - min xs.length N) % N ∧
    ∀ i < min xs.length N,
      (EventBuffer.pushMany (EventBuffer.empty T N) xs).buffer[
        (xs.length - min xs.length N + i) % N]? =
      some (xs[xs.length - min xs.length N + i]?) := by
  induction xs using List.reverseRecOn with
  | nil =>
    refine ⟨rfl, by simp [EventBuffer.pushMany, EventBuffer.empty], ?_, ?_, ?_, ?_⟩
    · simp [EventBuffer.pushMany, EventBuffer.empty]
    · simp [EventBuffer.pushMany, EventBuffer.empty, Nat.zero_mod]
    · simp [EventBuffer.pushMany, EventBuffer.empty, Nat.zero_mod]
    · intro i hi
      simp at hi
  | append_singleton l a ih =>
    obtain ⟨hmax, hbuf, hcount, hhead, htail, hcont⟩ := ih
    have hstep : EventBuffer.pushMany (EventBuffer.empty T N) (l ++ [a]) =
        EventBuffer.push (EventBuffer.pushMany (EventBuffer.empty T N) l) a := by
      unfold EventBuffer.pushMany
      rw [List.foldl_append]
      rfl
    set P := EventBuffer.pushMany (EventBuffer.empty T N) l with hP
    set M := l.length with hM
    have hlen : (l ++ [a]).length = M + 1 := by simp
    rw [hstep, hlen]
    unfold EventBuffer.push
    by_cases hMN : M < N
    · have hcnd : P.count < P.maxSize := by rw [hcount, hmax]; omega
      rw [if_pos hcnd]
      have hheadM : P.head = M := by rw [hhead, Nat.mod_eq_of_lt hMN]
      refine ⟨hmax, ?_, ?_, ?_, ?_, ?_⟩
      · simpa [List.length_set] using hbuf
      · show P.count + 1 = min (M + 1) N
        rw [hcount]; omega
      · show (P.head + 1) % P.maxSize = (M + 1) % N
        rw [hhead, hmax]
        exact Nat.ModEq.add_right 1 (Nat.mod_modEq M N)
      · show P.tail = (M + 1 - min (M + 1) N) % N
        rw [htail]
        have h1 : M - min M N = 0 := by omega
        have h2 : M + 1 - min (M + 1) N = 0 := by omega
        rw [h1, h2]
      · intro i hi
        have hiN : i < M + 1 := by omega
        have hwin : M + 1 - min (M + 1) N = 0 := by omega
        rw [hwin]
        simp only [Nat.zero_add]
        have hiltN : i < N := by omega
        rw [Nat.mod_eq_of_lt hiltN]
        rcases Nat.lt_or_ge i M with hiM | hiM
        · have hne : P.head ≠ i := by omega
          rw [List.getElem?_set_ne hne]
          have hz : M - min M N = 0 := by omega
          have hc := hcont i (by omega)
          rw [hz] at hc
          simp only [Nat.zero_add] at hc
          rw [Nat.mod_eq_of_lt hiltN] at hc
          rw [hc, List.getElem?_append_left hiM]
        · have hieq : i = M := by omega
          subst hieq
          rw [hheadM, List.getElem?_set_self (by rw [hbuf]; omega)]
          rw [List.getElem?_append_right (by omega)]
          have hz0 : M - l.length = 0 := by omega
          rw [hz0]
          rfl
    · have hcnd : ¬ P.count < P.maxSize := by rw [hcount, hmax]; omega
      rw [if_neg hcnd]
      have hminN : min M N = N := by omega
      refine ⟨hmax, ?_, ?_, ?_, ?_, ?_⟩
      · simpa [List.length_set] using hbuf
      · show P.count = min (M + 1) N
        rw [hcount]; omega
      · show (P.head + 1) % P.maxSize = (M + 1) % N
        rw [hhead, hmax]
        exact Nat.ModEq.add_right 1 (Nat.mod_modEq M N)
      · show (P.tail + 1) % P.maxSize = (M + 1 - min (M + 1) N) % N
        rw [htail, hmax, hminN]
        have h1 : (M - N) % N + 1 ≡ (M - N) + 1 [MOD N] :=
          Nat.ModEq.add_right 1 (Nat.mod_modEq (M - N) N)
        have h2 : M - N + 1 = M + 1 - min (M + 1) N := by omega
        rw [← h2]
        exact h1
      · intro i hi
        have hmin1 : min (M + 1) N = N := by omega
        rw [hmin1] at hi ⊢
        rcases Nat.lt_or_ge i (N - 1) with hiN1 | hiN1
        · have hj : M + 1 - N + i = M - N + (i + 1) := by omega
          have hjM : M + 1 - N + i < M := by omega
          have hne : P.head ≠ (M + 1 - N + i) % N := by
            rw [hhead]
            intro heq
            have hmeq : (M + 1 - N + i) % N = M % N := heq.symm
            have hmodeq : Nat.ModEq N (M + 1 - N + i) M := hmeq
            have hdvd : N ∣ M - (M + 1 - N + i) :=
              (Nat.modEq_iff_dvd' (by omega)).mp hmodeq
            have hpos : 0 < M - (M + 1 - N + i) := by omega
            have := Nat.le_of_dvd hpos hdvd
            omega
          rw [List.getElem?_set_ne hne]
          have hc := hcont (i + 1) (by omega)
          rw [hminN] at hc
          rw [hj, hc, List.getElem?_append_left (by omega)]
        · have hieq : i = N - 1 := by omega
          subst hieq
          have hjM : M + 1 - N + (N - 1) = M := by omega
          rw [hjM, ← hhead,
            List.getElem?_set_self (by rw [hbuf, hhead]; exact Nat.mod_lt _ hN)]
          rw [List.getElem?_append_right (by omega)]
          have hz0 : M - l.length = 0 := by omega
          rw [hz0]
          rfl

/-- C3: pushing `M` items into an empty ring buffer of capacity `N > 0`
retains exactly the last `min M N` items in push order (`getAll` equals
the last `min M N` of the pushed list), and the count invariant
`0 ≤ count ≤ N` holds with `count = min M N`. -/
theorem claim_C3_ring_buffer {T : Type} (N : Nat) (hN : 0 < N) (xs : List T) :
    (EventBuffer.pushMany (EventBuffer.empty T N) xs).getAll =
      (xs.drop (xs.length - N)).map some ∧
    (EventBuffer.pushMany (EventBuffer.empty T N) xs).count = min xs.length N ∧
    (EventBuffer.pushMany (EventBuffer.empty T N) xs).count ≤ N := by
  obtain ⟨hmax, hbuf, hcount, hhead, htail, hcont⟩ := pushMany_invariant N hN xs
  set st := EventBuffer.pushMany (EventBuffer.empty T N) xs with hst
  set M := xs.length with hM
  refine ⟨?_, hcount, by rw [hcount]; omega⟩
  apply List.ext_getElem?
  intro n
  unfold EventBuffer.getAll
  by_cases hn : n < min M N
  · rw [List.getElem?_map, List.getElem?_range (by rw [hcount]; omega)]
    have hidx : (st.tail + n) % st.maxSize = (M - min M N + n) % N := by
      rw [htail, hmax]
      exact Nat.ModEq.add_right n (Nat.mod_modEq (M - min M N) N)
    have hj : M - min M N + n < M := by omega
    have hc := hcont n hn
    have hxs : xs[M - min M N + n]? = some (xs.get ⟨M - min M N + n, hj⟩) := by
      rw [List.getElem?_eq_getElem hj]
      rfl
    rw [List.getElem?_map, List.getElem?_drop]
    have hdropidx : M - N + n = M - min M N + n := by omega
    rw [hdropidx]
    rw [hxs] at hc
    simp only [Option.map_some']
    rw [List.getD_eq_getElem?_getD, hidx, hc, hxs]
    rfl
  · have hlhs : ((List.range st.count).map
        (fun i => st.buffer.getD ((st.tail + i) % st.maxSize) none))[n]? = none := by
      apply List.getElem?_eq_none
      rw [List.length_map, List.length_range, hcount]
      omega
    have hrhs : ((xs.drop (M - N)).map (some : T → Option T))[n]? = none := by
      apply List.getElem?_eq_none
      rw [List.length_map, List.length_drop]
      omega
    rw [hlhs, hrhs]

/-- C3 witness: capacity 2, three pushes retain the last two in order. -/
theorem claim_C3_witness :
    (EventBuffer.pushMany (EventBuffer.empty Nat 2) [10, 20, 30]).getAll =
      [some 20, some 30] ∧
    (EventBuffer.pushMany (EventBuffer.empty Nat 2) [10, 20, 30]).count = 2 := by
  have h := claim_C3_ring_buffer 2 (by decide) [10, 20, 30]
  constructor
  · rw [h.1]; rfl
  · rw [h.2.1]; rfl

/-! ## Jetstream JSON event parsing (`parseJetstreamEvent`)

`JSON.parse` is a host primitive; its result is a JSON value (or a parse
failure, modelled as `none`).  The function under verification is the
validation after the parse: `if (!event.did || !event.time_us ||
!event.kind) return null` — JavaScript truthiness, inside a `try` that
also catches the `TypeError` thrown by property access on `null`. -/

inductive JVal where
  | jnull
  | jbool (b : Bool)
  | jnum (n : Int)
  | jstr (s : String)
  | jarr (elems : List JVal)
  | jobj (fields : List (String × JVal))

def didKey : String := "did"

def timeUsKey : String := "time_us"

def kindKey : String := "kind"

/-- Property access `obj[name]` on a parsed JSON object. -/
def getField (fields : List (String × JVal)) (name : String) : Option JVal :=
  (fields.find? (fun f => decide (f.1 = name))).map (·.2)

/-- JavaScript `ToBoolean` of a property-access result (`none` is
`undefined`).  `JSON.parse` cannot produce `NaN`, so a numeric field is
falsy exactly when it is `0`. -/
def truthy : Option JVal → Bool
  | none => false
  | some .jnull => false
  | some (.jbool b) => b
  | some (.jnum n) => decide (n ≠ 0)
  | some (.jstr s) => decide (s ≠ "")
  | some (.jarr _) => true
  | some (.jobj _) => true

/-- `parseJetstreamEvent` applied to the `JSON.parse` result (`none`
when the text is not valid JSON).  Property access on a parsed `null`
throws and is caught; on any other non-object it is `undefined`, which
is falsy, so every non-object parse yields `null`. -/
def parseJetstreamEvent (parsed : Option JVal) : Option JVal :=
  match parsed with
  | none => none
  | some .jnull => none
  | some (.jobj fields) =>
    if truthy (getField fields didKey) && truthy (getField fields timeUsKey) &&
        truthy (getField fields kindKey) then some (.jobj fields) else none
  | some _ => none

/-- All three required fields present (`time_us` falsy), defeating the
claim that presence alone suffices. -/
def c4Fields : List (String × JVal) :=
  [(didKey, .jstr didKey), (timeUsKey, .jnum 0), (kindKey, .jstr kindKey)]

/-- C4 counterexample: a valid JSON object in which `did`, `time_us` and
`kind` are all present, yet `parseJetstreamEvent` returns `null`,
because the code tests truthiness (`!event.time_us`) and `time_us = 0`
is falsy.  So "returns null exactly when a field is absent" is false. -/
theorem claim_C4_counterexample :
    (getField c4Fields didKey).isSome = true ∧
    (getField c4Fields timeUsKey).isSome = true ∧
    (getField c4Fields kindKey).isSome = true ∧
    parseJetstreamEvent (some (.jobj c4Fields)) = none :=
  ⟨rfl, rfl, rfl, rfl⟩

/-- C4 (amended): `parseJetstreamEvent` returns the parsed event exactly
when the text parses to an object whose `did`, `time_us` and `kind`
fields are all present *and truthy*; in every other case (parse failure
included) it returns `null` — it never throws and never returns anything
else. -/
theorem claim_C4_parse (parsed : Option JVal) :
    (∀ v, parsed = some v →
      (parseJetstreamEvent parsed = some v ↔
        ∃ fields, v = .jobj fields ∧
          truthy (getField fields didKey) = true ∧
          truthy (getField fields timeUsKey) = true ∧
          truthy (getField fields kindKey) = true)) ∧
    (parseJetstreamEvent parsed = parsed ∨ parseJetstreamEvent parsed = none) ∧
    (parsed = none → parseJetstreamEvent parsed = none) := by
  refine ⟨?_, ?_, ?_⟩
  · rintro v rfl
    constructor
    · intro h
      cases v with
      | jobj fields =>
        refine ⟨fields, rfl, ?_, ?_, ?_⟩ <;>
        · by_contra hb
          simp only [Bool.not_eq_true] at hb
          unfold parseJetstreamEvent at h
          simp [hb] at h
      | jnull => exact absurd h (by simp [parseJetstreamEvent])
      | jbool b => exact absurd h (by simp [parseJetstreamEvent])
      | jnum n => exact absurd h (by simp [parseJetstreamEvent])
      | jstr s => exact absurd h (by simp [parseJetstreamEvent])
      | jarr elems => exact absurd h (by simp [parseJetstreamEvent])
    · rintro ⟨fields, rfl, h1, h2, h3⟩
      unfold parseJetstreamEvent
      simp [h1, h2, h3]
  · cases parsed with
    | none => exact Or.inr rfl
    | some v =>
      cases v with
      | jobj fields =>
        by_cases h : (truthy (getField fields didKey) &&
            truthy (getField fields timeUsKey) &&
            truthy (getField fields kindKey)) = true
        · exact Or.inl (by simp only [parseJetstreamEvent]; rw [if_pos h])
        · exact Or.inr (by simp only [parseJetstreamEvent]; rw [if_neg h])
      | jnull => exact Or.inr rfl
      | jbool b => exact Or.inr rfl
      | jnum n => exact Or.inr rfl
      | jstr s => exact Or.inr rfl
      | jarr elems => exact Or.inr rfl
  · rintro rfl
    rfl

/-- C4 witness: an object with truthy `did`, `time_us`, `kind` is
returned unchanged. -/
theorem claim_C4_witness :
    parseJetstreamEvent (some (.jobj
      [(didKey, .jstr didKey), (timeUsKey, .jnum 1), (kindKey, .jstr kindKey)])) =
    some (.jobj
      [(didKey, .jstr didKey), (timeUsKey, .jnum 1), (kindKey, .jstr kindKey)]) :=
  ((claim_C4_parse _).1 _ rfl).mpr
    ⟨[(didKey, .jstr didKey), (timeUsKey, .jnum 1), (kindKey, .jstr kindKey)],
      rfl, rfl, rfl, rfl⟩

/-! ## Timestamp identifiers (`tidToDate` / `isTid` from labels.ts)

TIDs are 13-character base32-sortable identifiers; the first 11
characters carry the microsecond timestamp, the final 2 are a clock id.
`tidToDate` converts the timestamp to milliseconds (`BigInt` division by
1000, i.e. exact truncating division on naturals). -/

def TID_CHARS : List Char := "234567abcdefghijklmnopqrstuvwxyz".toList

/-- `TID_CHARS.indexOf(char.toLowerCase())`, with `-1` as `none`. -/
def tidCharIndex (c : Char) : Option Nat :=
  if TID_CHARS.contains c.toLower then some (TID_CHARS.indexOf c.toLower)
  else none

/-- The digit-accumulation loop of `tidToDate`
(`timestamp = timestamp * 32n + BigInt(index)`, early `null` on an
unknown character). -/
def tidFold : List Char → Nat → Option Nat
  | [], acc => some acc
  | c :: cs, acc =>
    match tidCharIndex c with
    | none => none
    | some i => tidFold cs (acc * 32 + i)

/-- `tidToDate`: `null` unless exactly 13 characters; decode only the
first 11; divide the microsecond value by 1000 for the `Date`. -/
def tidToDate (tid : String) : Option Nat :=
  if tid.length ≠ 13 then none
  else
    match tidFold (tid.toList.take 11) 0 with
    | none => none
    | some timestamp => some (timestamp / 1000)

/-- `isTid`: 13 characters, all from the alphabet (case-folded). -/
def isTid (s : String) : Bool :=
  s.length == 13 && s.toList.all (fun c => TID_CHARS.contains c.toLower)

/-- A timestamp-key as the claim quantifies them: 13 characters, each
drawn from the 32-symbol alphabet itself. -/
def ValidTid (s : String) : Prop :=
  s.toList.length = 13 ∧ ∀ c ∈ s.toList, c ∈ TID_CHARS

instance : DecidablePred ValidTid := fun s =>
  inferInstanceAs (Decidable (_ ∧ _))

theorem tidCharIndex_alpha : ∀ c ∈ TID_CHARS,
    tidCharIndex c = some (TID_CHARS.indexOf c) := by decide

theorem tid_indexOf_lt : ∀ c ∈ TID_CHARS, TID_CHARS.indexOf c < 32 := by decide

theorem tid_lt_iff_indexOf_lt : ∀ c ∈ TID_CHARS, ∀ d ∈ TID_CHARS,
    (c < d ↔ TID_CHARS.indexOf c < TID_CHARS.indexOf d) := by decide

/-- `tidFold` over alphabet characters is the base-32 fold of the digit
list. -/
theorem tidFold_eq_foldl (cs : List Char) (acc : Nat)
    (h : ∀ c ∈ cs, c ∈ TID_CHARS) :
    tidFold cs acc = some ((cs.map (fun c => TID_CHARS.indexOf c)).foldl
      (fun t d => t * 32 + d) acc) := by
  induction cs generalizing acc with
  | nil => rfl
  | cons c cs ih =>
    have hc : c ∈ TID_CHARS := h c (List.mem_cons_self c cs)
    show (match tidCharIndex c with
      | none => none
      | some i => tidFold cs (acc * 32 + i)) = _
    rw [tidCharIndex_alpha c hc]
    show tidFold cs (acc * 32 + TID_CHARS.indexOf c) = _
    rw [ih _ (fun x hx => h x (List.mem_cons_of_mem c hx))]
    rw [List.map_cons, List.foldl_cons]

def tidVal (ds : List Nat) : Nat := ds.foldl (fun t d => t * 32 + d) 0

theorem tidVal_foldl_base (ds : List Nat) (a : Nat) :
    ds.foldl (fun t d => t * 32 + d) a = a * 32 ^ ds.length + tidVal ds := by
  induction ds generalizing a with
  | nil => simp [tidVal]
  | cons d ds ih =>
    show ds.foldl _ (a * 32 + d) = a * 32 ^ (ds.length + 1) + tidVal (d :: ds)
    rw [ih (a * 32 + d)]
    show (a * 32 + d) * 32 ^ ds.length + tidVal ds = _
    have hv : tidVal (d :: ds) = d * 32 ^ ds.length + tidVal ds := by
      show ds.foldl _ (0 * 32 + d) = _
      rw [ih (0 * 32 + d)]
      ring_nf
    rw [hv]
    ring

theorem tidVal_lt (ds : List Nat) (h : ∀ d ∈ ds, d < 32) :
    tidVal ds < 32 ^ ds.length := by
  induction ds with
  | nil => simp [tidVal]
  | cons d ds ih =>
    have hd : d < 32 := h d (List.mem_cons_self d ds)
    have hds := ih (fun x hx => h x (List.mem_cons_of_mem d hx))
    have hv : tidVal (d :: ds) = d * 32 ^ ds.length + tidVal ds := by
      show ds.foldl _ (0 * 32 + d) = _
      rw [tidVal_foldl_base]
      ring_nf
    rw [hv]
    calc d * 32 ^ ds.length + tidVal ds < d * 32 ^ ds.length + 32 ^ ds.length :=
        Nat.add_lt_add_left hds _
      _ = (d + 1) * 32 ^ ds.length := by ring
      _ ≤ 32 * 32 ^ ds.length := Nat.mul_le_mul_right _ hd
      _ = 32 ^ (ds.length + 1) := by ring

/-- Strict lexicographic order on equal-length digit lists (digits
below 32) gives a strictly smaller base-32 value. -/
theorem tidVal_lt_of_lex (ds es : List Nat) (hlen : ds.length = es.length)
    (hd : ∀ d ∈ ds, d < 32) (he : ∀ e ∈ es, e < 32)
    (hlex : List.Lex (· < ·) ds es) : tidVal ds < tidVal es := by
  induction hlex with
  | nil => simp at hlen
  | @rel a as b bs hab =>
    simp only [List.length_cons, Nat.add_right_cancel_iff] at hlen
    have hva : tidVal (a :: as) = a * 32 ^ as.length + tidVal as := by
      show as.foldl _ (0 * 32 + a) = _
      rw [tidVal_foldl_base]; ring_nf
    have hvb : tidVal (b :: bs) = b * 32 ^ bs.length + tidVal bs := by
      show bs.foldl _ (0 * 32 + b) = _
      rw [tidVal_foldl_base]; ring_nf
    rw [hva, hvb, ← hlen]
    have h1 : tidVal as < 32 ^ as.length :=
      tidVal_lt as (fun x hx => hd x (List.mem_cons_of_mem a hx))
    calc a * 32 ^ as.length + tidVal as < a * 32 ^ as.length + 32 ^ as.length :=
        Nat.add_lt_add_left h1 _
      _ = (a + 1) * 32 ^ as.length := by ring
      _ ≤ b * 32 ^ as.length := Nat.mul_le_mul_right _ hab
      _ ≤ b * 32 ^ as.length + tidVal bs := Nat.le_add_right _ _
  | @cons a as bs hlex ih =>
    simp only [List.length_cons, Nat.add_right_cancel_iff] at hlen
    have hva : tidVal (a :: as) = a * 32 ^ as.length + tidVal as := by
      show as.foldl _ (0 * 32 + a) = _
      rw [tidVal_foldl_base]; ring_nf
    have hvb : tidVal (a :: bs) = a * 32 ^ bs.length + tidVal bs := by
      show bs.foldl _ (0 * 32 + a) = _
      rw [tidVal_foldl_base]; ring_nf
    rw [hva, hvb, ← hlen]
    have := ih hlen (fun x hx => hd x (List.mem_cons_of_mem a hx))
      (fun x hx => he x (List.mem_cons_of_mem a hx))
    exact Nat.add_lt_add_left this _

/-- Lexicographic order on alphabet characters maps to lexicographic
order on their digit indices. -/
theorem lex_map_indexOf (cs ds : List Char)
    (hc : ∀ c ∈ cs, c ∈ TID_CHARS) (hd : ∀ c ∈ ds, c ∈ TID_CHARS)
    (hlex : List.Lex (· < ·) cs ds) :
    List.Lex (· < ·) (cs.map (fun c => TID_CHARS.indexOf c))
      (ds.map (fun c => TID_CHARS.indexOf c)) := by
  induction hlex with
  | nil => exact List.Lex.nil
  | @rel a as b bs hab =>
    have ha : a ∈ TID_CHARS := hc a (List.mem_cons_self a as)
    have hb : b ∈ TID_CHARS := hd b (List.mem_cons_self b bs)
    exact List.Lex.rel ((tid_lt_iff_indexOf_lt a ha b hb).mp hab)
  | @cons a as bs hlex ih =>
    exact List.Lex.cons (ih (fun x hx => hc x (List.mem_cons_of_mem a hx))
      (fun x hx => hd x (List.mem_cons_of_mem a hx)))

/-- C8: over valid 13-character timestamp-keys, the decoded timestamp of
`tidToDate` is monotonically non-decreasing in the lexicographic order
of the first 11 characters, and only those 11 characters contribute (two
keys agreeing on them decode identically, whatever their clock id). -/
theorem claim_C8_tid_monotonic (s t : String)
    (hs : ValidTid s) (ht : ValidTid t)
    (hle : s.toList.take 11 = t.toList.take 11 ∨
      List.Lex (· < ·) (s.toList.take 11) (t.toList.take 11)) :
    (∃ a b, tidToDate s = some a ∧ tidToDate t = some b ∧ a ≤ b) ∧
    (s.toList.take 11 = t.toList.take 11 → tidToDate s = tidToDate t) := by
  obtain ⟨hslen, hsmem⟩ := hs
  obtain ⟨htlen, htmem⟩ := ht
  have hs13 : s.length = 13 := hslen
  have ht13 : t.length = 13 := htlen
  have hsub : ∀ c ∈ s.toList.take 11, c ∈ TID_CHARS :=
    fun c hc => hsmem c (List.take_subset 11 _ hc)
  have htsub : ∀ c ∈ t.toList.take 11, c ∈ TID_CHARS :=
    fun c hc => htmem c (List.take_subset 11 _ hc)
  have hfs := tidFold_eq_foldl (s.toList.take 11) 0 hsub
  have hft := tidFold_eq_foldl (t.toList.take 11) 0 htsub
  have hds : tidToDate s =
      some (tidVal ((s.toList.take 11).map (fun c => TID_CHARS.indexOf c)) / 1000) := by
    unfold tidToDate
    rw [if_neg (by rw [hs13]; decide), hfs]
    rfl
  have hdt : tidToDate t =
      some (tidVal ((t.toList.take 11).map (fun c => TID_CHARS.indexOf c)) / 1000) := by
    unfold tidToDate
    rw [if_neg (by rw [ht13]; decide), hft]
    rfl
  constructor
  · refine ⟨_, _, hds, hdt, ?_⟩
    rcases hle with heq | hlex
    · rw [heq]
    · apply Nat.div_le_div_right
      apply Nat.le_of_lt
      apply tidVal_lt_of_lex
      · simp only [List.length_map, List.length_take, hslen, htlen]
      · intro d hdm
        rcases List.mem_map.mp hdm with ⟨c, hcm, rfl⟩
        exact tid_indexOf_lt c (hsub c hcm)
      · intro e hem
        rcases List.mem_map.mp hem with ⟨c, hcm, rfl⟩
        exact tid_indexOf_lt c (htsub c hcm)
      · exact lex_map_indexOf _ _ hsub htsub hlex
  · intro heq
    rw [hds, hdt, heq]

def tidLow : String := "2222222222222"

def tidHigh : String := "3222222222277"

/-- C8 witness: two concrete valid keys in lexicographic order of their
first 11 characters decode to ordered timestamps, and the clock-id
suffix does not matter. -/
theorem claim_C8_witness :
    (∃ a b, tidToDate tidLow = some a ∧ tidToDate tidHigh = some b ∧ a ≤ b) ∧
    (tidLow.toList.take 11 = tidHigh.toList.take 11 →
      tidToDate tidLow = tidToDate tidHigh) :=
  claim_C8_tid_monotonic tidLow tidHigh (by decide) (by decide)
    (Or.inr (List.Lex.rel (by decide)))

/-! ## Value classification (`detectEncoding` and helper predicates)

The classifier inspects arbitrary JSON-like values (plus `Uint8Array`),
modelled by `JsVal`.  Each helper mirrors one `is…` function of the
decode module; the regular expressions are expanded into their exact
character-level languages (the `i` flag of the CID pattern folds both
cases of every letter class). -/

inductive EncodingType where
  | atUri | did | blobRef | strongRef | tid | datetime | cid | base64
  | bytes | unknown
deriving DecidableEq

inductive JsVal where
  | vnull
  | vbool (b : Bool)
  | vnum (n : Int)
  | vstr (s : String)
  | varr (elems : List JsVal)
  | vobj (fields : List (String × JsVal))
  | vbytes (bs : List Nat)

def atPre : String := "at://"

def didPre : String := "did:"

def blobTypeStr : String := "blob"

def typeKey : String := "$type"

def refKey : String := "ref"

def uriKey : String := "uri"

def cidKey : String := "cid"

/-- Property access on a JSON-like object. -/
def jsField (fields : List (String × JsVal)) (name : String) : Option JsVal :=
  (fields.find? (fun f => decide (f.1 = name))).map (·.2)

/-- `isAtUri`: a string starting with `at://`. -/
def isAtUri : JsVal → Bool
  | .vstr s => s.startsWith atPre
  | _ => false

/-- `isDid`: a string starting with `did:`. -/
def isDid : JsVal → Bool
  | .vstr s => s.startsWith didPre
  | _ => false

/-- `typeof x === "object" && !!x` for a property-access result. -/
def isTruthyObject : Option JsVal → Bool
  | some (.vobj _) => true
  | some (.varr _) => true
  | some (.vbytes _) => true
  | _ => false

/-- `isBlobRef`: an object with `$type === "blob"` and a truthy object
`ref`. -/
def isBlobRef : JsVal → Bool
  | .vobj fields =>
    (match jsField fields typeKey with
      | some (.vstr s) => decide (s = blobTypeStr)
      | _ => false) && isTruthyObject (jsField fields refKey)
  | _ => false

/-- `isStrongRef`: an object with a string `uri` starting `at://` and a
string `cid`. -/
def isStrongRef : JsVal → Bool
  | .vobj fields =>
    (match jsField fields uriKey with
      | some (.vstr u) => u.startsWith atPre
      | _ => false) &&
    (match jsField fields cidKey with
      | some (.vstr _) => true
      | _ => false)
  | _ => false

/-- The `^\d{4}-\d{2}-\d{2}T\d{2}:\d{2}:\d{2}` prefix test of
`isDatetime`. -/
def matchDatetimePre : List Char → Bool
  | a1 :: a2 :: a3 :: a4 :: d1 :: b1 :: b2 :: d2 :: c1 :: c2 :: tt ::
      e1 :: e2 :: s1 :: f1 :: f2 :: s2 :: g1 :: g2 :: _ =>
    a1.isDigit && a2.isDigit && a3.isDigit && a4.isDigit && d1 == '-' &&
    b1.isDigit && b2.isDigit && d2 == '-' && c1.isDigit && c2.isDigit &&
    tt == 'T' && e1.isDigit && e2.isDigit && s1 == ':' && f1.isDigit &&
    f2.isDigit && s2 == ':' && g1.isDigit && g2.isDigit
  | _ => false

/-- `isDatetime`. -/
def isDatetime : JsVal → Bool
  | .vstr s => matchDatetimePre s.toList
  | _ => false

/-- The base58 class `[1-9A-HJ-NP-Za-km-z]` under the `/i` flag: the
case folding readmits every excluded letter (`i`, `l`, `o` match via
their other case), leaving digits `1-9` and all ASCII letters. -/
def isB58i (c : Char) : Bool := (c.isDigit && c != '0') || c.isAlpha

/-- The base32 class `[a-z2-7]` under `/i`: any ASCII letter or a digit
`2-7`. -/
def isB32i (c : Char) : Bool :=
  c.isAlpha || (('2' ≤ c) && (c ≤ '7'))

/-- `isCid`: the three case-insensitive alternatives of the CID
regular expression. -/
def isCid : JsVal → Bool
  | .vstr s =>
    let cs := s.toList
    (match cs with
      | c1 :: c2 :: rest =>
        c1.toLower == 'q' && c2.toLower == 'm' &&
        decide (rest.length = 44) && rest.all isB58i
      | _ => false) ||
    (match cs with
      | c1 :: rest =>
        c1.toLower == 'b' && decide (rest.length ≥ 58) && rest.all isB32i
      | _ => false) ||
    (match cs with
      | c1 :: c2 :: c3 :: c4 :: rest =>
        c1.toLower == 'b' && c2.toLower == 'a' && c3.toLower == 'f' &&
        c4.toLower == 'y' && decide (rest.length ≥ 1) && rest.all isB32i
      | _ => false)
  | _ => false

/-- The base64 character class `[A-Za-z0-9+/]`. -/
def isB64Char (c : Char) : Bool := c.isAlphanum || c == '+' || c == '/'

/-- The language of `^[A-Za-z0-9+/]+=*$`: a non-empty run of class
characters followed by trailing `=` padding (unique split, since `=` is
not in the class). -/
def base64Shape (cs : List Char) : Bool :=
  let core := (cs.reverse.dropWhile (fun c => c == '=')).reverse
  decide (core ≠ []) && core.all isB64Char

/-- `isBase64`: minimum length 20, the shape test, and length divisible
by 4. -/
def isBase64 : JsVal → Bool
  | .vstr s =>
    if s.length < 20 then false
    else base64Shape s.toList && decide (s.length % 4 = 0)
  | _ => false

/-- `isBytes`: a `Uint8Array`, or an array whose members are all numbers
in `[0, 255]`. -/
def isBytes : JsVal → Bool
  | .vbytes _ => true
  | .varr elems => elems.all (fun v =>
      match v with
      | .vnum n => decide (0 ≤ n) && decide (n ≤ 255)
      | _ => false)
  | _ => false

/-- `detectEncoding`: the ordered first-match classifier. -/
def detectEncoding (v : JsVal) : EncodingType :=
  if isAtUri v then .atUri
  else if isDid v then .did
  else if isBlobRef v then .blobRef
  else if isStrongRef v then .strongRef
  else if (match v with | .vstr s => isTid s | _ => false) then .tid
  else if isDatetime v then .datetime
  else if isCid v then .cid
  else if isBase64 v then .base64
  else if isBytes v then .bytes
  else .unknown

/-- C9: the classifier is total — every JSON-like value is assigned one
of the ten encoding tags — and no string shorter than 20 characters is
ever classified as base64. -/
theorem claim_C9_detect_total (v : JsVal) :
    detectEncoding v ∈ [EncodingType.atUri, EncodingType.did,
      EncodingType.blobRef, EncodingType.strongRef, EncodingType.tid,
      EncodingType.datetime, EncodingType.cid, EncodingType.base64,
      EncodingType.bytes, EncodingType.unknown] ∧
    (∀ s : String, s.length < 20 →
      detectEncoding (.vstr s) ≠ EncodingType.base64) := by
  constructor
  · cases h : detectEncoding v <;> simp
  · intro s hlen
    have hb : isBase64 (.vstr s) = false := by
      show (if s.length < 20 then false
        else base64Shape s.toList && decide (s.length % 4 = 0)) = false
      rw [if_pos hlen]
    unfold detectEncoding
    split_ifs <;> simp_all

/-- C9 witness: a short string is not classified base64 (it is in fact
`unknown`). -/
theorem claim_C9_witness :
    detectEncoding (JsVal.vstr didKey) ≠ EncodingType.base64 :=
  (claim_C9_detect_total (JsVal.vstr didKey)).2 didKey (by decide)

/-! ## CBOR boundary scanning (`findCborBoundary`, `decodeFirehoseFrame`)

`findCborBoundary` walks one CBOR value with a recursive `readValue`
closure over a shared cursor.  We model it as a fuel-indexed walker over
an immutable byte list with an explicit cursor, faithful to the
JavaScript semantics of the source:

* `bytes[pos]` on a `Uint8Array` is `undefined` out of range (negative
  included), modelled as `none`;
* `BigInt(bytes[pos])` throws a `TypeError` on `undefined` (the
  additional-info 24 and 27 reads), while the shifted reads of
  additional info 25 and 26 coerce `undefined` to `0`;
* the additional-info-26 read `(b1 << 24) | … | b4` is 32-bit **signed**
  arithmetic, so a declared length `≥ 2^31` becomes negative;
* cursor arithmetic is exact (`Number` is exact below `2^53`, and a
  `Uint8Array` is far smaller than that).

`JsRes.spin` marks fuel exhaustion: a run that spins for *every* fuel
bound is a non-terminating JavaScript execution. -/

namespace Cbor

inductive JsRes where
  | ok (pos : Int)
  | exn
  | spin
deriving DecidableEq

/-- `bytes[pos]` on a `Uint8Array` (`none` = `undefined`). -/
def getB (bytes : List Nat) (pos : Int) : Option Nat :=
  if pos < 0 then none else bytes[pos.toNat]?

/-- JavaScript `ToInt32`. -/
def toInt32 (n : Nat) : Int :=
  let m : Nat := n % 2 ^ 32
  if m < 2 ^ 31 then (m : Int) else (m : Int) - 2 ^ 32

/-- The additional-info-26 argument `(b1 << 24) | (b2 << 16) | (b3 << 8)
| b4` in 32-bit signed arithmetic (byte operands do not overlap, so the
bitwise ors are addition). -/
def ai26Value (b1 b2 b3 b4 : Nat) : Int :=
  toInt32 (b1 * 2 ^ 24 + b2 * 2 ^ 16 + b3 * 2 ^ 8 + b4)

/-- The additional-info-27 argument: eight `BigInt` byte reads. -/
def read8 (bytes : List Nat) (pos : Int) : Nat :=
  (List.range 8).foldl
    (fun acc i => acc * 256 + (getB bytes (pos + (i : Int))).getD 0) 0

/-- Reading the argument of a data item head whose additional info is
`ai ≠ 31` starting at `pos` (the byte after the initial byte): returns
the argument and the cursor after it, or `none` for the thrown
`TypeError` of an out-of-range `BigInt` read.  Additional infos 28–30
leave the argument `0` and consume nothing, exactly as the source
falls through. -/
def readArg (bytes : List Nat) (pos : Int) (ai : Nat) : Option (Int × Int) :=
  if ai < 24 then some ((ai : Int), pos)
  else if ai = 24 then
    match getB bytes pos with
    | none => none
    | some b => some ((b : Int), pos + 1)
  else if ai = 25 then
    some ((((getB bytes pos).getD 0) * 256 + (getB bytes (pos + 1)).getD 0 : Nat),
      pos + 2)
  else if ai = 26 then
    some (ai26Value ((getB bytes pos).getD 0) ((getB bytes (pos + 1)).getD 0)
      ((getB bytes (pos + 2)).getD 0) ((getB bytes (pos + 3)).getD 0), pos + 4)
  else if ai = 27 then
    if 0 ≤ pos ∧ pos + 8 ≤ (bytes.length : Int) then
      some ((read8 bytes pos : Int), pos + 8)
    else none
  else some (0, pos)

mutual

/-- One `readValue()` call of `findCborBoundary`. -/
def readValue (fuel : Nat) (bytes : List Nat) (pos : Int) : JsRes :=
  match fuel with
  | 0 => .spin
  | fuel + 1 =>
    if pos ≥ (bytes.length : Int) then .exn
    else
      let initial := (getB bytes pos).getD 0
      let major := initial / 32
      let ai := initial % 32
      if ai = 31 then
        if major = 2 ∨ major = 3 ∨ major = 4 then readUntilBreak fuel bytes (pos + 1)
        else if major = 5 then readPairsUntilBreak fuel bytes (pos + 1)
        else .ok (pos + 1)
      else
        match readArg bytes (pos + 1) ai with
        | none => .exn
        | some (arg, pos2) =>
          if major = 0 ∨ major = 1 ∨ major = 7 then .ok pos2
          else if major = 2 ∨ major = 3 then .ok (pos2 + arg)
          else if major = 4 then readSeq fuel bytes pos2 arg.toNat
          else if major = 5 then readPairs fuel bytes pos2 arg.toNat
          else if major = 6 then readValue fuel bytes pos2
          else .ok pos2

/-- The definite-array loop `for (i = 0n; i < argValue; i++) readValue()`. -/
def readSeq (fuel : Nat) (bytes : List Nat) (pos : Int) (n : Nat) : JsRes :=
  match n with
  | 0 => .ok pos
  | n + 1 =>
    match fuel with
    | 0 => .spin
    | fuel + 1 =>
      match readValue fuel bytes pos with
      | .ok p => readSeq fuel bytes p n
      | r => r

/-- The definite-map loop (two `readValue()` per entry). -/
def readPairs (fuel : Nat) (bytes : List Nat) (pos : Int) (n : Nat) : JsRes :=
  match n with
  | 0 => .ok pos
  | n + 1 =>
    match fuel with
    | 0 => .spin
    | fuel + 1 =>
      match readValue fuel bytes pos with
      | .ok p =>
        match readValue fuel bytes p with
        | .ok q => readPairs fuel bytes q n
        | r => r
      | r => r

/-- `while (bytes[pos] !== 0xff) readValue(); pos++` — indefinite
strings and arrays. -/
def readUntilBreak (fuel : Nat) (bytes : List Nat) (pos : Int) : JsRes :=
  match fuel with
  | 0 => .spin
  | fuel + 1 =>
    if getB bytes pos = some 0xff then .ok (pos + 1)
    else
      match readValue fuel bytes pos with
      | .ok p => readUntilBreak fuel bytes p
      | r => r

/-- The indefinite-map loop (two `readValue()` per iteration). -/
def readPairsUntilBreak (fuel : Nat) (bytes : List Nat) (pos : Int) : JsRes :=
  match fuel with
  | 0 => .spin
  | fuel + 1 =>
    if getB bytes pos = some 0xff then .ok (pos + 1)
    else
      match readValue fuel bytes pos with
      | .ok p =>
        match readValue fuel bytes p with
        | .ok q => readPairsUntilBreak fuel bytes q
        | r => r
      | r => r

end

/-- `findCborBoundary(bytes)`: one `readValue()` from position `0`,
returning the cursor. -/
def findCborBoundary (fuel : Nat) (bytes : List Nat) : JsRes :=
  readValue fuel bytes 0

/-- `Uint8Array.slice(0, b)` with the JavaScript clamping rules. -/
def jsSliceTo (bytes : List Nat) (b : Int) : List Nat :=
  let e := if b < 0 then max ((bytes.length : Int) + b) 0
    else min b (bytes.length : Int)
  bytes.take e.toNat

/-- `Uint8Array.slice(b)` with the JavaScript clamping rules. -/
def jsSliceFrom (bytes : List Nat) (b : Int) : List Nat :=
  let s := if b < 0 then max ((bytes.length : Int) + b) 0
    else min b (bytes.length : Int)
  bytes.drop s.toNat

/-- The boundary-and-split step of `decodeFirehoseFrame`: compute the
boundary and slice the header bytes `[0, boundary)` and body bytes
`[boundary, end)`.  The subsequent `decode` calls belong to the external
`@ipld/dag-cbor` library; a thrown boundary scan is caught and becomes
`null` (`none`). -/
def decodeFirehoseFrameSplit (fuel : Nat) (bytes : List Nat) :
    Option (List Nat × List Nat) :=
  match findCborBoundary fuel bytes with
  | .ok b => some (jsSliceTo bytes b, jsSliceFrom bytes b)
  | _ => none

/-! ### CBOR values and their encodings

`CVal` covers every well-formed CBOR data item: both integer signs, all
string forms (definite and indefinite, chunked), definite and indefinite
arrays and maps, tags, simple values (one- and two-byte) and the three
float widths (whose payload is kept as raw bytes — the scanner never
interprets it). -/

mutual

inductive CVal where
  | uint (n : Nat)
  | nint (n : Nat)
  | bstr (bs : List Nat)
  | tstr (bs : List Nat)
  | bstrI (chunks : List (List Nat))
  | tstrI (chunks : List (List Nat))
  | arr (vs : CList)
  | arrI (vs : CList)
  | cmap (ps : CPairs)
  | cmapI (ps : CPairs)
  | tag (t : Nat) (v : CVal)
  | simple (n : Nat)
  | simple8 (n : Nat)
  | float16 (b1 b2 : Nat)
  | float32 (b1 b2 b3 b4 : Nat)
  | float64 (b1 b2 b3 b4 b5 b6 b7 b8 : Nat)

inductive CList where
  | nil
  | cons (v : CVal) (vs : CList)

inductive CPairs where
  | pnil
  | pcons (k v : CVal) (ps : CPairs)

end

def clen : CList → Nat
  | .nil => 0
  | .cons _ vs => clen vs + 1

def plen : CPairs → Nat
  | .pnil => 0
  | .pcons _ _ ps => plen ps + 1

/-- The additional info of the minimal-width head for argument `n`. -/
def aiOf (n : Nat) : Nat :=
  if n < 24 then n
  else if n < 256 then 24
  else if n < 65536 then 25
  else if n < 4294967296 then 26
  else 27

/-- The argument bytes (big-endian) of the minimal-width head. -/
def argBytes (n : Nat) : List Nat :=
  if n < 24 then []
  else if n < 256 then [n]
  else if n < 65536 then [n / 2 ^ 8 % 256, n % 256]
  else if n < 4294967296 then
    [n / 2 ^ 24 % 256, n / 2 ^ 16 % 256, n / 2 ^ 8 % 256, n % 256]
  else
    [n / 2 ^ 56 % 256, n / 2 ^ 48 % 256, n / 2 ^ 40 % 256, n / 2 ^ 32 % 256,
      n / 2 ^ 24 % 256, n / 2 ^ 16 % 256, n / 2 ^ 8 % 256, n % 256]

/-- A data item head: initial byte plus argument bytes. -/
def encArg (major n : Nat) : List Nat := (major * 32 + aiOf n) :: argBytes n

/-- The chunk sequence of an indefinite string (each chunk a definite
string of the same major type). -/
def encChunks (major : Nat) : List (List Nat) → List Nat
  | [] => []
  | c :: cs => encArg major c.length ++ c ++ encChunks major cs

mutual

/-- The CBOR encoding of a value (minimal-width heads). -/
def encC : CVal → List Nat
  | .uint n => encArg 0 n
  | .nint n => encArg 1 n
  | .bstr bs => encArg 2 bs.length ++ bs
  | .tstr bs => encArg 3 bs.length ++ bs
  | .bstrI chunks => (2 * 32 + 31) :: (encChunks 2 chunks ++ [255])
  | .tstrI chunks => (3 * 32 + 31) :: (encChunks 3 chunks ++ [255])
  | .arr vs => encArg 4 (clen vs) ++ encL vs
  | .arrI vs => (4 * 32 + 31) :: (encL vs ++ [255])
  | .cmap ps => encArg 5 (plen ps) ++ encP ps
  | .cmapI ps => (5 * 32 + 31) :: (encP ps ++ [255])
  | .tag t v => encArg 6 t ++ encC v
  | .simple n => [7 * 32 + n]
  | .simple8 n => [7 * 32 + 24, n]
  | .float16 b1 b2 => [7 * 32 + 25, b1, b2]
  | .float32 b1 b2 b3 b4 => [7 * 32 + 26, b1, b2, b3, b4]
  | .float64 b1 b2 b3 b4 b5 b6 b7 b8 =>
    [7 * 32 + 27, b1, b2, b3, b4, b5, b6, b7, b8]

def encL : CList → List Nat
  | .nil => []
  | .cons v vs => encC v ++ encL vs

def encP : CPairs → List Nat
  | .pnil => []
  | .pcons k v ps => encC k ++ encC v ++ encP ps

end

def byteOk (b : Nat) : Bool := decide (b < 256)

mutual

/-- Well-formed CBOR: argument bounds, byte ranges, simple-value
ranges. -/
def validC : CVal → Bool
  | .uint n => decide (n < 2 ^ 64)
  | .nint n => decide (n < 2 ^ 64)
  | .bstr bs => decide (bs.length < 2 ^ 64) && bs.all byteOk
  | .tstr bs => decide (bs.length < 2 ^ 64) && bs.all byteOk
  | .bstrI chunks =>
    chunks.all (fun c => decide (c.length < 2 ^ 64) && c.all byteOk)
  | .tstrI chunks =>
    chunks.all (fun c => decide (c.length < 2 ^ 64) && c.all byteOk)
  | .arr vs => decide (clen vs < 2 ^ 64) && validL vs
  | .arrI vs => validL vs
  | .cmap ps => decide (plen ps < 2 ^ 64) && validP ps
  | .cmapI ps => validP ps
  | .tag t v => decide (t < 2 ^ 64) && validC v
  | .simple n => decide (n < 24)
  | .simple8 n => decide (32 ≤ n) && decide (n < 256)
  | .float16 b1 b2 => byteOk b1 && byteOk b2
  | .float32 b1 b2 b3 b4 => byteOk b1 && byteOk b2 && byteOk b3 && byteOk b4
  | .float64 b1 b2 b3 b4 b5 b6 b7 b8 =>
    byteOk b1 && byteOk b2 && byteOk b3 && byteOk b4 && byteOk b5 &&
    byteOk b6 && byteOk b7 && byteOk b8

def validL : CList → Bool
  | .nil => true
  | .cons v vs => validC v && validL vs

def validP : CPairs → Bool
  | .pnil => true
  | .pcons k v ps => validC k && validC v && validP ps

end

mutual

/-- The length/count restriction forced by the 32-bit signed
additional-info-26 read: every definite string length and every definite
array/map count below `2^31`. -/
def smallC : CVal → Bool
  | .bstr bs => decide (bs.length < 2 ^ 31)
  | .tstr bs => decide (bs.length < 2 ^ 31)
  | .bstrI chunks => chunks.all (fun c => decide (c.length < 2 ^ 31))
  | .tstrI chunks => chunks.all (fun c => decide (c.length < 2 ^ 31))
  | .arr vs => decide (clen vs < 2 ^ 31) && smallL vs
  | .arrI vs => smallL vs
  | .cmap ps => decide (plen ps < 2 ^ 31) && smallP ps
  | .cmapI ps => smallP ps
  | .tag _ v => smallC v
  | _ => true

def smallL : CList → Bool
  | .nil => true
  | .cons v vs => smallC v && smallL vs

def smallP : CPairs → Bool
  | .pnil => true
  | .pcons k v ps => smallC k && smallC v && smallP ps

end

def costChunks : List (List Nat) → Nat
  | [] => 1
  | _ :: cs => 1 + max 1 (costChunks cs)

mutual

/-- Sufficient fuel for the walker on an encoded value. -/
def costC : CVal → Nat
  | .bstrI chunks => 1 + costChunks chunks
  | .tstrI chunks => 1 + costChunks chunks
  | .arr vs => 1 + costL vs
  | .arrI vs => 1 + costUB vs
  | .cmap ps => 1 + costP ps
  | .cmapI ps => 1 + costPUB ps
  | .tag _ v => 1 + costC v
  | _ => 1

/-- Fuel for `readSeq` over an encoded element list. -/
def costL : CList → Nat
  | .nil => 0
  | .cons v vs => 1 + max (costC v) (costL vs)

/-- Fuel for `readPairs` over an encoded pair list. -/
def costP : CPairs → Nat
  | .pnil => 0
  | .pcons k v ps => 1 + max (costC k) (max (costC v) (costP ps))

/-- Fuel for `readUntilBreak` over an encoded element list plus break. -/
def costUB : CList → Nat
  | .nil => 1
  | .cons v vs => 1 + max (costC v) (costUB vs)

/-- Fuel for `readPairsUntilBreak`. -/
def costPUB : CPairs → Nat
  | .pnil => 1
  | .pcons k v ps => 1 + max (costC k) (max (costC v) (costPUB ps))

end

/-! ### Byte-access lemmas -/

theorem getB_eq (bytes pre suf : List Nat) (b : Nat)
    (h : bytes = pre ++ b :: suf) :
    getB bytes (pre.length : Int) = some b := by
  subst h
  unfold getB
  rw [if_neg (by omega)]
  rw [Int.toNat_natCast]
  rw [List.getElem?_append_right (Nat.le_refl _)]
  simp

theorem getB_big (bytes : List Nat) (pos : Int)
    (h : (bytes.length : Int) ≤ pos) : getB bytes pos = none := by
  unfold getB
  by_cases hneg : pos < 0
  · rw [if_pos hneg]
  · rw [if_neg hneg]
    apply List.getElem?_eq_none
    omega

/-! ### Head arithmetic -/

theorem aiOf_lt (n : Nat) : aiOf n < 28 := by
  unfold aiOf
  split_ifs <;> omega

theorem headByte_div (major n : Nat) :
    (major * 32 + aiOf n) / 32 = major := by
  have h := aiOf_lt n
  omega

theorem headByte_mod (major n : Nat) :
    (major * 32 + aiOf n) % 32 = aiOf n := by
  have h := aiOf_lt n
  omega

theorem length_argBytes (n : Nat) :
    (argBytes n).length =
      (if n < 24 then 0 else if n < 256 then 1 else if n < 65536 then 2
       else if n < 4294967296 then 4 else 8) := by
  unfold argBytes
  split_ifs <;> rfl

theorem length_encArg (major n : Nat) :
    (encArg major n).length = (argBytes n).length + 1 := by
  unfold encArg
  simp [Nat.add_comm]

/-- `read8` at a position holding eight explicit bytes. -/
theorem read8_eq (bytes pre suf : List Nat) (b0 b1 b2 b3 b4 b5 b6 b7 : Nat)
    (h : bytes = pre ++ [b0, b1, b2, b3, b4, b5, b6, b7] ++ suf) :
    read8 bytes (pre.length : Int) =
      ((((((b0 * 256 + b1) * 256 + b2) * 256 + b3) * 256 + b4) * 256 + b5) *
        256 + b6) * 256 + b7 := by
  have g : ∀ (k : Nat) (l1 l2 : List Nat) (c : Nat),
      [b0, b1, b2, b3, b4, b5, b6, b7] = l1 ++ c :: l2 → l1.length = k →
      getB bytes ((pre.length : Int) + (k : Int)) = some c := by
    intro k l1 l2 c hsplit hlen
    have : bytes = (pre ++ l1) ++ c :: (l2 ++ suf) := by
      rw [h, hsplit]; simp
    have hg := getB_eq bytes (pre ++ l1) (l2 ++ suf) c this
    rw [List.length_append, hlen] at hg
    have hcast : ((pre.length + k : Nat) : Int) =
        (pre.length : Int) + (k : Int) := by push_cast; ring
    rw [hcast] at hg
    exact hg
  have h0 := g 0 [] [b1, b2, b3, b4, b5, b6, b7] b0 rfl rfl
  have h1 := g 1 [b0] [b2, b3, b4, b5, b6, b7] b1 rfl rfl
  have h2 := g 2 [b0, b1] [b3, b4, b5, b6, b7] b2 rfl rfl
  have h3 := g 3 [b0, b1, b2] [b4, b5, b6, b7] b3 rfl rfl
  have h4 := g 4 [b0, b1, b2, b3] [b5, b6, b7] b4 rfl rfl
  have h5 := g 5 [b0, b1, b2, b3, b4] [b6, b7] b5 rfl rfl
  have h6 := g 6 [b0, b1, b2, b3, b4, b5] [b7] b6 rfl rfl
  have h7 := g 7 [b0, b1, b2, b3, b4, b5, b6] [] b7 rfl rfl
  show (List.range 8).foldl
    (fun acc i => acc * 256 + (getB bytes ((pre.length : Int) + (i : Int))).getD 0)
    0 = _
  have hr : List.range 8 = [0, 1, 2, 3, 4, 5, 6, 7] := rfl
  rw [hr]
  simp only [List.foldl]
  rw [h0, h1, h2, h3, h4, h5, h6, h7]
  simp only [Option.getD_some]
  ring

/-- Byte lookup inside the middle segment of a three-way split. -/
theorem getB_split (bytes pre mid suf l1 l2 : List Nat) (c k : Nat)
    (hb : bytes = pre ++ mid ++ suf) (hm : mid = l1 ++ c :: l2)
    (hk : l1.length = k) :
    getB bytes ((pre.length : Int) + (k : Int)) = some c := by
  have hb2 : bytes = (pre ++ l1) ++ c :: (l2 ++ suf) := by rw [hb, hm]; simp
  have hg := getB_eq bytes (pre ++ l1) (l2 ++ suf) c hb2
  rw [List.length_append, hk] at hg
  have hcast : ((pre.length + k : Nat) : Int) = (pre.length : Int) + (k : Int) := by
    push_cast; ring
  rw [hcast] at hg
  exact hg

set_option maxHeartbeats 1000000 in
/-- Reading the minimal-width argument encoding of `n` recovers the
correct post-argument cursor, and — whenever `n` avoids the 32-bit
signed window `[2^31, 2^32)` — the exact argument value. -/
theorem readArg_enc (pre post : List Nat) (n : Nat) (hn : n < 2 ^ 64) :
    ∃ a : Int,
      readArg (pre ++ argBytes n ++ post) (pre.length : Int) (aiOf n) =
        some (a, ((pre.length + (argBytes n).length : Nat) : Int)) ∧
      ((n < 2 ^ 31 ∨ 2 ^ 32 ≤ n) → a = (n : Int)) := by
  by_cases h24 : n < 24
  · have hai : aiOf n = n := by unfold aiOf; rw [if_pos h24]
    have hab : argBytes n = [] := by unfold argBytes; rw [if_pos h24]
    have hL : ((pre.length + (argBytes n).length : Nat) : Int) =
        (pre.length : Int) := by rw [hab]; push_cast; simp
    refine ⟨(n : Int), ?_, fun _ => rfl⟩
    rw [hai, hL]
    unfold readArg
    rw [if_pos h24]
  · by_cases h256 : n < 256
    · have hai : aiOf n = 24 := by unfold aiOf; rw [if_neg h24, if_pos h256]
      have hab : argBytes n = [n] := by
        unfold argBytes; rw [if_neg h24, if_pos h256]
      have hL : ((pre.length + (argBytes n).length : Nat) : Int) =
          (pre.length : Int) + 1 := by rw [hab]; push_cast; simp
      have hget : getB (pre ++ argBytes n ++ post) (pre.length : Int) =
          some n := by
        apply getB_eq _ pre post n
        rw [hab]; simp
      refine ⟨(n : Int), ?_, fun _ => rfl⟩
      rw [hai, hL]
      unfold readArg
      rw [if_neg (by omega), if_pos rfl, hget]
    · by_cases h65536 : n < 65536
      · have hai : aiOf n = 25 := by
          unfold aiOf; rw [if_neg h24, if_neg h256, if_pos h65536]
        have hab : argBytes n = [n / 2 ^ 8 % 256, n % 256] := by
          unfold argBytes; rw [if_neg h24, if_neg h256, if_pos h65536]
        have hL : ((pre.length + (argBytes n).length : Nat) : Int) =
            (pre.length : Int) + 2 := by rw [hab]; push_cast; simp
        have hg0 : getB (pre ++ argBytes n ++ post) (pre.length : Int) =
            some (n / 2 ^ 8 % 256) := by
          apply getB_eq _ pre ((n % 256) :: post)
          rw [hab]; simp
        have hg1 : getB (pre ++ argBytes n ++ post)
            ((pre.length : Int) + 1) = some (n % 256) := by
          have h := getB_split _ pre (argBytes n) post [n / 2 ^ 8 % 256] []
            (n % 256) 1 rfl (by rw [hab]; simp) rfl
          rw [show (pre.length : Int) + ((1 : Nat) : Int) =
            (pre.length : Int) + 1 from by push_cast; ring] at h
          exact h
        refine ⟨((n / 2 ^ 8 % 256) * 256 + n % 256 : Nat), ?_, fun _ => ?_⟩
        · rw [hai, hL]
          unfold readArg
          rw [if_neg (by omega), if_neg (by omega), if_pos rfl, hg0, hg1]
          simp only [Option.getD_some]
        · congr 1
          omega
      · by_cases h32 : n < 4294967296
        · have hai : aiOf n = 26 := by
            unfold aiOf; rw [if_neg h24, if_neg h256, if_neg h65536, if_pos h32]
          have hab : argBytes n =
              [n / 2 ^ 24 % 256, n / 2 ^ 16 % 256, n / 2 ^ 8 % 256, n % 256] := by
            unfold argBytes
            rw [if_neg h24, if_neg h256, if_neg h65536, if_pos h32]
          have hL : ((pre.length + (argBytes n).length : Nat) : Int) =
              (pre.length : Int) + 4 := by rw [hab]; push_cast; simp
          have hg0 : getB (pre ++ argBytes n ++ post) (pre.length : Int) =
              some (n / 2 ^ 24 % 256) := by
            apply getB_eq _ pre
              ([n / 2 ^ 16 % 256, n / 2 ^ 8 % 256, n % 256] ++ post)
            rw [hab]; simp
          have hg1 : getB (pre ++ argBytes n ++ post)
              ((pre.length : Int) + 1) = some (n / 2 ^ 16 % 256) := by
            have h := getB_split _ pre (argBytes n) post [n / 2 ^ 24 % 256]
              [n / 2 ^ 8 % 256, n % 256] (n / 2 ^ 16 % 256) 1 rfl
              (by rw [hab]; simp) rfl
            rw [show (pre.length : Int) + ((1 : Nat) : Int) =
              (pre.length : Int) + 1 from by push_cast; ring] at h
            exact h
          have hg2 : getB (pre ++ argBytes n ++ post)
              ((pre.length : Int) + 2) = some (n / 2 ^ 8 % 256) := by
            have h := getB_split _ pre (argBytes n) post
              [n / 2 ^ 24 % 256, n / 2 ^ 16 % 256] [n % 256]
              (n / 2 ^ 8 % 256) 2 rfl (by rw [hab]; simp) rfl
            rw [show (pre.length : Int) + ((2 : Nat) : Int) =
              (pre.length : Int) + 2 from by push_cast; ring] at h
            exact h
          have hg3 : getB (pre ++ argBytes n ++ post)
              ((pre.length : Int) + 3) = some (n % 256) := by
            have h := getB_split _ pre (argBytes n) post
              [n / 2 ^ 24 % 256, n / 2 ^ 16 % 256, n / 2 ^ 8 % 256] []
              (n % 256) 3 rfl (by rw [hab]; simp) rfl
            rw [show (pre.length : Int) + ((3 : Nat) : Int) =
              (pre.length : Int) + 3 from by push_cast; ring] at h
            exact h
          refine ⟨ai26Value (n / 2 ^ 24 % 256) (n / 2 ^ 16 % 256)
            (n / 2 ^ 8 % 256) (n % 256), ?_, fun hc => ?_⟩
          · rw [hai, hL]
            unfold readArg
            rw [if_neg (by omega), if_neg (by omega), if_neg (by omega),
              if_pos rfl, hg0, hg1, hg2, hg3]
            simp only [Option.getD_some]
          · have hlt : n < 2 ^ 31 := by
              rcases hc with hc | hc
              · exact hc
              · omega
            have hu : n / 2 ^ 24 % 256 * 2 ^ 24 + n / 2 ^ 16 % 256 * 2 ^ 16 +
                n / 2 ^ 8 % 256 * 2 ^ 8 + n % 256 = n := by omega
            unfold ai26Value toInt32
            rw [hu]
            simp only
            rw [Nat.mod_eq_of_lt (by omega), if_pos (by omega)]
        · have hai : aiOf n = 27 := by
            unfold aiOf
            rw [if_neg h24, if_neg h256, if_neg h65536, if_neg h32]
          have hab : argBytes n =
              [n / 2 ^ 56 % 256, n / 2 ^ 48 % 256, n / 2 ^ 40 % 256,
                n / 2 ^ 32 % 256, n / 2 ^ 24 % 256, n / 2 ^ 16 % 256,
                n / 2 ^ 8 % 256, n % 256] := by
            unfold argBytes
            rw [if_neg h24, if_neg h256, if_neg h65536, if_neg h32]
          have hlen8 : (argBytes n).length = 8 := by rw [hab]; rfl
          have hL : ((pre.length + (argBytes n).length : Nat) : Int) =
              (pre.length : Int) + 8 := by rw [hlen8]; push_cast; ring
          have h8 := read8_eq (pre ++ argBytes n ++ post) pre post
            (n / 2 ^ 56 % 256) (n / 2 ^ 48 % 256) (n / 2 ^ 40 % 256)
            (n / 2 ^ 32 % 256) (n / 2 ^ 24 % 256) (n / 2 ^ 16 % 256)
            (n / 2 ^ 8 % 256) (n % 256) (by rw [hab])
          have hval : ((((((n / 2 ^ 56 % 256 * 256 + n / 2 ^ 48 % 256) * 256 +
              n / 2 ^ 40 % 256) * 256 + n / 2 ^ 32 % 256) * 256 +
              n / 2 ^ 24 % 256) * 256 + n / 2 ^ 16 % 256) * 256 +
              n / 2 ^ 8 % 256) * 256 + n % 256 = n := by omega
          refine ⟨(n : Int), ?_, fun _ => rfl⟩
          rw [hai, hL]
          unfold readArg
          rw [if_neg (by omega), if_neg (by omega), if_neg (by omega),
            if_neg (by omega), if_pos rfl]
          rw [if_pos ?_]
          · rw [h8, hval]
          · constructor
            · positivity
            · simp only [List.length_append, hlen8]
              push_cast
              omega

/-! ### One-step unfolding equations for the walker -/

theorem readValue_succ (fuel : Nat) (bytes : List Nat) (pos : Int) :
    readValue (fuel + 1) bytes pos =
      if pos ≥ (bytes.length : Int) then .exn
      else
        let initial := (getB bytes pos).getD 0
        let major := initial / 32
        let ai := initial % 32
        if ai = 31 then
          if major = 2 ∨ major = 3 ∨ major = 4 then
            readUntilBreak fuel bytes (pos + 1)
          else if major = 5 then readPairsUntilBreak fuel bytes (pos + 1)
          else .ok (pos + 1)
        else
          match readArg bytes (pos + 1) ai with
          | none => .exn
          | some (arg, pos2) =>
            if major = 0 ∨ major = 1 ∨ major = 7 then .ok pos2
            else if major = 2 ∨ major = 3 then .ok (pos2 + arg)
            else if major = 4 then readSeq fuel bytes pos2 arg.toNat
            else if major = 5 then readPairs fuel bytes pos2 arg.toNat
            else if major = 6 then readValue fuel bytes pos2
            else .ok pos2 := rfl

theorem readSeq_zero (fuel : Nat) (bytes : List Nat) (pos : Int) :
    readSeq fuel bytes pos 0 = .ok pos := by cases fuel <;> rfl

theorem readSeq_succ (fuel n : Nat) (bytes : List Nat) (pos : Int) :
    readSeq (fuel + 1) bytes pos (n + 1) =
      match readValue fuel bytes pos with
      | .ok p => readSeq fuel bytes p n
      | r => r := rfl

theorem readPairs_zero (fuel : Nat) (bytes : List Nat) (pos : Int) :
    readPairs fuel bytes pos 0 = .ok pos := by cases fuel <;> rfl

theorem readPairs_succ (fuel n : Nat) (bytes : List Nat) (pos : Int) :
    readPairs (fuel + 1) bytes pos (n + 1) =
      match readValue fuel bytes pos with
      | .ok p =>
        match readValue fuel bytes p with
        | .ok q => readPairs fuel bytes q n
        | r => r
      | r => r := rfl

theorem readUntilBreak_succ (fuel : Nat) (bytes : List Nat) (pos : Int) :
    readUntilBreak (fuel + 1) bytes pos =
      if getB bytes pos = some 0xff then .ok (pos + 1)
      else
        match readValue fuel bytes pos with
        | .ok p => readUntilBreak fuel bytes p
        | r => r := rfl

theorem readPairsUntilBreak_succ (fuel : Nat) (bytes : List Nat) (pos : Int) :
    readPairsUntilBreak (fuel + 1) bytes pos =
      if getB bytes pos = some 0xff then .ok (pos + 1)
      else
        match readValue fuel bytes pos with
        | .ok p =>
          match readValue fuel bytes p with
          | .ok q => readPairsUntilBreak fuel bytes q
          | r => r
        | r => r := rfl

/-! ### The walker on encoded values -/

/-- The walker on a definite-length string (major type 2 or 3) of
length below `2^31`: it skips the content and stops exactly at its
end. -/
theorem readValue_defstr (major : Nat) (hm : major = 2 ∨ major = 3)
    (bs : List Nat) (pre post : List Nat) (fuel : Nat)
    (hlen : bs.length < 2 ^ 31) (hf : 1 ≤ fuel) :
    readValue fuel (pre ++ (encArg major bs.length ++ bs) ++ post)
      (pre.length : Int) =
      .ok ((pre.length + (encArg major bs.length ++ bs).length : Nat) : Int) := by
  obtain ⟨f, rfl⟩ : ∃ f, fuel = f + 1 := ⟨fuel - 1, by omega⟩
  set n := bs.length with hn
  set bytes := pre ++ (encArg major n ++ bs) ++ post with hbytes
  have hmaj8 : major < 8 := by rcases hm with rfl | rfl <;> omega
  have hsplit : bytes = pre ++ (major * 32 + aiOf n) :: (argBytes n ++ (bs ++ post)) := by
    rw [hbytes]
    simp [encArg]
  have hg := getB_eq bytes pre _ _ hsplit
  have hpos : ¬ ((pre.length : Int) ≥ (bytes.length : Int)) := by
    rw [hsplit]
    simp only [List.length_append, List.length_cons]
    push_cast
    omega
  rw [readValue_succ, if_neg hpos]
  simp only [hg, Option.getD_some, headByte_div, headByte_mod]
  rw [if_neg (by have := aiOf_lt n; omega)]
  have harg := readArg_enc (pre ++ [major * 32 + aiOf n]) (bs ++ post) n
    (by omega)
  rcases harg with ⟨a, hargeq, haval⟩
  have hbeq : (pre ++ [major * 32 + aiOf n]) ++ argBytes n ++ (bs ++ post) =
      bytes := by
    rw [hsplit]
    simp
  rw [hbeq] at hargeq
  have hposeq : (((pre ++ [major * 32 + aiOf n]).length : Nat) : Int) =
      (pre.length : Int) + 1 := by
    simp
  rw [hposeq] at hargeq
  rw [hargeq]
  dsimp only
  have hnot017 : ¬ (major = 0 ∨ major = 1 ∨ major = 7) := by
    rcases hm with rfl | rfl <;> simp
  rw [if_neg hnot017, if_pos hm]
  have hav : a = (n : Int) := haval (Or.inl hlen)
  rw [hav]
  congr 1
  simp only [List.length_append, List.length_cons, List.length_nil, length_encArg]
  push_cast
  ring


/-- Processing a minimal-width head `encArg major n`: the walker reads
the initial byte and the argument, then dispatches on the major type
with the cursor placed right after the head. -/
theorem readValue_afterHead (major n : Nat) (pre tail post : List Nat) (f : Nat)
    (hmaj : major < 8) (hn : n < 2 ^ 64) :
    ∃ a : Int,
      ((n < 2 ^ 31 ∨ 2 ^ 32 ≤ n) → a = (n : Int)) ∧
      readValue (f + 1) (pre ++ (encArg major n ++ tail) ++ post)
        (pre.length : Int) =
        (if major = 0 ∨ major = 1 ∨ major = 7 then
          JsRes.ok ((pre.length + (encArg major n).length : Nat) : Int)
        else if major = 2 ∨ major = 3 then
          JsRes.ok (((pre.length + (encArg major n).length : Nat) : Int) + a)
        else if major = 4 then
          readSeq f (pre ++ (encArg major n ++ tail) ++ post)
            ((pre.length + (encArg major n).length : Nat) : Int) a.toNat
        else if major = 5 then
          readPairs f (pre ++ (encArg major n ++ tail) ++ post)
            ((pre.length + (encArg major n).length : Nat) : Int) a.toNat
        else if major = 6 then
          readValue f (pre ++ (encArg major n ++ tail) ++ post)
            ((pre.length + (encArg major n).length : Nat) : Int)
        else JsRes.ok ((pre.length + (encArg major n).length : Nat) : Int)) := by
  set bytes := pre ++ (encArg major n ++ tail) ++ post with hbytes
  have hsplit : bytes = pre ++ (major * 32 + aiOf n) :: (argBytes n ++ (tail ++ post)) := by
    rw [hbytes]
    simp [encArg]
  have hg := getB_eq bytes pre _ _ hsplit
  have hpos : ¬ ((pre.length : Int) ≥ (bytes.length : Int)) := by
    rw [hsplit]
    simp only [List.length_append, List.length_cons]
    push_cast
    omega
  obtain ⟨a, hargeq, haval⟩ := readArg_enc (pre ++ [major * 32 + aiOf n])
    (tail ++ post) n hn
  refine ⟨a, haval, ?_⟩
  rw [readValue_succ, if_neg hpos]
  simp only [hg, Option.getD_some, headByte_div, headByte_mod]
  rw [if_neg (by have := aiOf_lt n; omega)]
  have hbeq : (pre ++ [major * 32 + aiOf n]) ++ argBytes n ++ (tail ++ post) =
      bytes := by
    rw [hsplit]
    simp
  rw [hbeq] at hargeq
  have hposeq : (((pre ++ [major * 32 + aiOf n]).length : Nat) : Int) =
      (pre.length : Int) + 1 := by simp
  rw [hposeq] at hargeq
  rw [hargeq]
  dsimp only
  have hlen2 : (pre ++ [major * 32 + aiOf n]).length + (argBytes n).length =
      pre.length + (encArg major n).length := by
    simp only [List.length_append, List.length_cons, List.length_nil,
      length_encArg]
    omega
  rw [hlen2]

/-- Processing an indefinite-length head `major·32 + 31`. -/
theorem readValue_indef (major : Nat) (pre tail post : List Nat) (f : Nat)
    (hmaj : major < 8) :
    readValue (f + 1) (pre ++ ((major * 32 + 31) :: tail) ++ post)
      (pre.length : Int) =
      (if major = 2 ∨ major = 3 ∨ major = 4 then
        readUntilBreak f (pre ++ ((major * 32 + 31) :: tail) ++ post)
          ((pre.length : Int) + 1)
      else if major = 5 then
        readPairsUntilBreak f (pre ++ ((major * 32 + 31) :: tail) ++ post)
          ((pre.length : Int) + 1)
      else .ok ((pre.length : Int) + 1)) := by
  have hsplit : pre ++ ((major * 32 + 31) :: tail) ++ post =
      pre ++ (major * 32 + 31) :: (tail ++ post) := by simp
  have hg := getB_eq _ pre _ _ hsplit
  have hpos : ¬ ((pre.length : Int) ≥
      ((pre ++ ((major * 32 + 31) :: tail) ++ post).length : Int)) := by
    simp only [List.length_append, List.length_cons]
    push_cast
    omega
  rw [readValue_succ, if_neg hpos]
  simp only [hg, Option.getD_some]
  have hd : (major * 32 + 31) / 32 = major := by omega
  have hm : (major * 32 + 31) % 32 = 31 := by omega
  rw [hd, hm, if_pos rfl]

theorem readArg_25 (bytes : List Nat) (pos : Int) :
    ∃ a, readArg bytes pos 25 = some (a, pos + 2) :=
  ⟨_, by unfold readArg; rw [if_neg (by omega), if_neg (by omega), if_pos rfl]⟩

theorem readArg_26 (bytes : List Nat) (pos : Int) :
    ∃ a, readArg bytes pos 26 = some (a, pos + 4) :=
  ⟨_, by
    unfold readArg
    rw [if_neg (by omega), if_neg (by omega), if_neg (by omega), if_pos rfl]⟩

theorem readArg_27 (bytes : List Nat) (pos : Int)
    (h : 0 ≤ pos ∧ pos + 8 ≤ (bytes.length : Int)) :
    ∃ a, readArg bytes pos 27 = some (a, pos + 8) :=
  ⟨_, by
    unfold readArg
    rw [if_neg (by omega), if_neg (by omega), if_neg (by omega),
      if_neg (by omega), if_pos rfl, if_pos h]⟩

theorem encC_simple (n : Nat) (h : n < 24) : encC (.simple n) = encArg 7 n := by
  show [7 * 32 + n] = (7 * 32 + aiOf n) :: argBytes n
  unfold aiOf argBytes
  rw [if_pos h, if_pos h]

theorem encC_simple8 (n : Nat) (h1 : 24 ≤ n) (h2 : n < 256) :
    encC (.simple8 n) = encArg 7 n := by
  show [7 * 32 + 24, n] = (7 * 32 + aiOf n) :: argBytes n
  unfold aiOf argBytes
  rw [if_neg (by omega), if_pos h2, if_neg (by omega), if_pos h2]

/-- Every encoded value starts with a byte below `255` (never the break
marker). -/
theorem encC_head (v : CVal) (hv : validC v = true) :
    ∃ b rest, encC v = b :: rest ∧ b < 255 := by
  have hai : ∀ m n : Nat, m < 8 → ∃ r, encArg m n = (m * 32 + aiOf n) :: r ∧
      m * 32 + aiOf n < 255 := by
    intro m n hm
    exact ⟨argBytes n, rfl, by have := aiOf_lt n; omega⟩
  cases v with
  | uint n =>
    obtain ⟨r, hr, hb⟩ := hai 0 n (by omega)
    exact ⟨_, r, by simpa [encC] using hr, hb⟩
  | nint n =>
    obtain ⟨r, hr, hb⟩ := hai 1 n (by omega)
    exact ⟨_, r, by simpa [encC] using hr, hb⟩
  | bstr bs =>
    obtain ⟨r, hr, hb⟩ := hai 2 bs.length (by omega)
    exact ⟨_, r ++ bs, by simp [encC, hr], hb⟩
  | tstr bs =>
    obtain ⟨r, hr, hb⟩ := hai 3 bs.length (by omega)
    exact ⟨_, r ++ bs, by simp [encC, hr], hb⟩
  | bstrI chunks => exact ⟨2 * 32 + 31, _, rfl, by omega⟩
  | tstrI chunks => exact ⟨3 * 32 + 31, _, rfl, by omega⟩
  | arr vs =>
    obtain ⟨r, hr, hb⟩ := hai 4 (clen vs) (by omega)
    exact ⟨_, r ++ encL vs, by simp [encC, hr], hb⟩
  | arrI vs => exact ⟨4 * 32 + 31, _, rfl, by omega⟩
  | cmap ps =>
    obtain ⟨r, hr, hb⟩ := hai 5 (plen ps) (by omega)
    exact ⟨_, r ++ encP ps, by simp [encC, hr], hb⟩
  | cmapI ps => exact ⟨5 * 32 + 31, _, rfl, by omega⟩
  | tag t v =>
    obtain ⟨r, hr, hb⟩ := hai 6 t (by omega)
    exact ⟨_, r ++ encC v, by simp [encC, hr], hb⟩
  | simple n =>
    have hn : n < 24 := by simpa [validC] using hv
    exact ⟨7 * 32 + n, [], rfl, by omega⟩
  | simple8 n => exact ⟨7 * 32 + 24, _, rfl, by omega⟩
  | float16 b1 b2 => exact ⟨7 * 32 + 25, _, rfl, by omega⟩
  | float32 b1 b2 b3 b4 => exact ⟨7 * 32 + 26, _, rfl, by omega⟩
  | float64 b1 b2 b3 b4 b5 b6 b7 b8 => exact ⟨7 * 32 + 27, _, rfl, by omega⟩

/-- The until-break loop over the chunk sequence of an indefinite
string: each chunk is a definite string; the loop stops at the break
byte just past the chunks. -/
theorem readChunks_enc (major : Nat) (hm : major = 2 ∨ major = 3)
    (chunks : List (List Nat)) (pre post : List Nat) (fuel : Nat)
    (hsmall : ∀ c ∈ chunks, c.length < 2 ^ 31)
    (hf : costChunks chunks ≤ fuel) :
    readUntilBreak fuel (pre ++ encChunks major chunks ++ (255 :: post))
      (pre.length : Int) =
      .ok ((pre.length + (encChunks major chunks).length + 1 : Nat) : Int) := by
  induction chunks generalizing pre fuel with
  | nil =>
    obtain ⟨f, rfl⟩ : ∃ f, fuel = f + 1 :=
      ⟨fuel - 1, by simp [costChunks] at hf; omega⟩
    have hg : getB (pre ++ encChunks major [] ++ (255 :: post))
        (pre.length : Int) = some 255 := by
      apply getB_eq _ pre post
      simp [encChunks]
    rw [readUntilBreak_succ, if_pos (by rw [hg])]
    simp [encChunks]
  | cons c cs ih =>
    obtain ⟨f, rfl⟩ : ∃ f, fuel = f + 1 :=
      ⟨fuel - 1, by simp [costChunks] at hf; omega⟩
    have hfc : costChunks cs ≤ f ∧ 1 ≤ f := by
      simp [costChunks] at hf
      omega
    have hmaj : major < 8 := by rcases hm with rfl | rfl <;> omega
    set bytes := pre ++ encChunks major (c :: cs) ++ (255 :: post) with hbytes
    have hsplit : bytes =
        pre ++ (major * 32 + aiOf c.length) ::
          (argBytes c.length ++ (c ++ (encChunks major cs ++ (255 :: post)))) := by
      rw [hbytes]
      simp [encChunks, encArg]
    have hg := getB_eq bytes pre _ _ hsplit
    rw [readUntilBreak_succ, if_neg (by
      rw [hg]
      have := aiOf_lt c.length
      simp only [Option.some.injEq]
      omega)]
    have hrv : readValue f bytes (pre.length : Int) =
        .ok ((pre.length + (encArg major c.length ++ c).length : Nat) : Int) := by
      have h := readValue_defstr major hm c pre
        (encChunks major cs ++ (255 :: post)) f
        (hsmall c (List.mem_cons_self c cs)) hfc.2
      have hbeq : pre ++ (encArg major c.length ++ c) ++
          (encChunks major cs ++ (255 :: post)) = bytes := by
        rw [hbytes]
        simp [encChunks]
      rw [hbeq] at h
      exact h
    rw [hrv]
    dsimp only
    have hpre2 : ((pre.length + (encArg major c.length ++ c).length : Nat) : Int) =
        (((pre ++ (encArg major c.length ++ c)).length : Nat) : Int) := by
      simp
    rw [hpre2]
    have hih := ih (pre ++ (encArg major c.length ++ c)) f
      (fun x hx => hsmall x (List.mem_cons_of_mem c hx)) hfc.1
    have hbeq2 : (pre ++ (encArg major c.length ++ c)) ++ encChunks major cs ++
        (255 :: post) = bytes := by
      rw [hbytes]
      simp [encChunks]
    rw [hbeq2] at hih
    rw [hih]
    congr 1
    simp only [List.length_append, encChunks]
    omega

mutual

/-- The boundary walker on any encoded well-formed CBOR value (all
definite lengths below `2^31`) stops exactly at the end of the
encoding. -/
theorem readValue_enc (v : CVal) (pre post : List Nat) (fuel : Nat)
    (hv : validC v = true) (hs : smallC v = true) (hf : costC v ≤ fuel) :
    readValue fuel (pre ++ encC v ++ post) (pre.length : Int) =
      .ok ((pre.length + (encC v).length : Nat) : Int) := by
  cases v with
  | uint n =>
    obtain ⟨f, rfl⟩ : ∃ f, fuel = f + 1 :=
      ⟨fuel - 1, by simp [costC] at hf; omega⟩
    have hn : n < 2 ^ 64 := by simpa [validC] using hv
    obtain ⟨a, hav, heq⟩ := readValue_afterHead 0 n pre [] post f (by omega) hn
    have hb : pre ++ (encArg 0 n ++ []) ++ post = pre ++ encC (.uint n) ++ post := by
      simp [encC]
    rw [hb] at heq
    rw [heq, if_pos (by simp)]
    rfl
  | nint n =>
    obtain ⟨f, rfl⟩ : ∃ f, fuel = f + 1 :=
      ⟨fuel - 1, by simp [costC] at hf; omega⟩
    have hn : n < 2 ^ 64 := by simpa [validC] using hv
    obtain ⟨a, hav, heq⟩ := readValue_afterHead 1 n pre [] post f (by omega) hn
    have hb : pre ++ (encArg 1 n ++ []) ++ post = pre ++ encC (.nint n) ++ post := by
      simp [encC]
    rw [hb] at heq
    rw [heq, if_pos (by simp)]
    rfl
  | bstr bs =>
    have hlen : bs.length < 2 ^ 31 := by simpa [smallC] using hs
    have hf1 : 1 ≤ fuel := by simp [costC] at hf; omega
    exact readValue_defstr 2 (Or.inl rfl) bs pre post fuel hlen hf1
  | tstr bs =>
    have hlen : bs.length < 2 ^ 31 := by simpa [smallC] using hs
    have hf1 : 1 ≤ fuel := by simp [costC] at hf; omega
    exact readValue_defstr 3 (Or.inr rfl) bs pre post fuel hlen hf1
  | bstrI chunks =>
    obtain ⟨f, rfl⟩ : ∃ f, fuel = f + 1 :=
      ⟨fuel - 1, by simp [costC] at hf; omega⟩
    have hfc : costChunks chunks ≤ f := by simp [costC] at hf; omega
    have hsm : ∀ c ∈ chunks, c.length < 2 ^ 31 := by
      simpa [smallC] using hs
    have heq := readValue_indef 2 pre (encChunks 2 chunks ++ [255]) post f
      (by omega)
    have hb : pre ++ ((2 * 32 + 31) :: (encChunks 2 chunks ++ [255])) ++ post =
        pre ++ encC (.bstrI chunks) ++ post := by simp [encC]
    rw [hb] at heq
    rw [heq, if_pos (by simp)]
    have hub := readChunks_enc 2 (Or.inl rfl) chunks (pre ++ [2 * 32 + 31])
      post f hsm hfc
    have hb2 : (pre ++ [2 * 32 + 31]) ++ encChunks 2 chunks ++ (255 :: post) =
        pre ++ encC (.bstrI chunks) ++ post := by simp [encC]
    rw [hb2] at hub
    have hp : (((pre ++ [2 * 32 + 31]).length : Nat) : Int) =
        (pre.length : Int) + 1 := by simp
    rw [hp] at hub
    rw [hub]
    have hfin : ((pre ++ [2 * 32 + 31]).length + (encChunks 2 chunks).length + 1 : Nat) =
      (pre.length + (encC (.bstrI chunks)).length : Nat) := by
      simp [encC]
      omega
    rw [hfin]
  | tstrI chunks =>
    obtain ⟨f, rfl⟩ : ∃ f, fuel = f + 1 :=
      ⟨fuel - 1, by simp [costC] at hf; omega⟩
    have hfc : costChunks chunks ≤ f := by simp [costC] at hf; omega
    have hsm : ∀ c ∈ chunks, c.length < 2 ^ 31 := by
      simpa [smallC] using hs
    have heq := readValue_indef 3 pre (encChunks 3 chunks ++ [255]) post f
      (by omega)
    have hb : pre ++ ((3 * 32 + 31) :: (encChunks 3 chunks ++ [255])) ++ post =
        pre ++ encC (.tstrI chunks) ++ post := by simp [encC]
    rw [hb] at heq
    rw [heq, if_pos (by simp)]
    have hub := readChunks_enc 3 (Or.inr rfl) chunks (pre ++ [3 * 32 + 31])
      post f hsm hfc
    have hb2 : (pre ++ [3 * 32 + 31]) ++ encChunks 3 chunks ++ (255 :: post) =
        pre ++ encC (.tstrI chunks) ++ post := by simp [encC]
    rw [hb2] at hub
    have hp : (((pre ++ [3 * 32 + 31]).length : Nat) : Int) =
        (pre.length : Int) + 1 := by simp
    rw [hp] at hub
    rw [hub]
    have hfin : ((pre ++ [3 * 32 + 31]).length + (encChunks 3 chunks).length + 1 : Nat) =
      (pre.length + (encC (.tstrI chunks)).length : Nat) := by
      simp [encC]
      omega
    rw [hfin]
  | arr vs =>
    obtain ⟨f, rfl⟩ : ∃ f, fuel = f + 1 :=
      ⟨fuel - 1, by simp [costC] at hf; omega⟩
    have hfl : costL vs ≤ f := by simp [costC] at hf; omega
    have hn : clen vs < 2 ^ 64 := by
      have := (by simpa [validC] using hv : clen vs < 2 ^ 64 ∧ validL vs = true)
      exact this.1
    have hvl : validL vs = true := by
      have := (by simpa [validC] using hv : clen vs < 2 ^ 64 ∧ validL vs = true)
      exact this.2
    have hsmall : clen vs < 2 ^ 31 ∧ smallL vs = true := by
      simpa [smallC] using hs
    obtain ⟨a, hav, heq⟩ := readValue_afterHead 4 (clen vs) pre (encL vs) post f
      (by omega) hn
    have hb : pre ++ (encArg 4 (clen vs) ++ encL vs) ++ post =
        pre ++ encC (.arr vs) ++ post := by simp [encC]
    rw [hb] at heq
    rw [heq, if_neg (by simp), if_neg (by simp), if_pos rfl]
    have haval : a = ((clen vs : Nat) : Int) := hav (Or.inl hsmall.1)
    rw [haval, Int.toNat_natCast]
    have hseq := readSeq_enc vs (pre ++ encArg 4 (clen vs)) post f hvl hsmall.2 hfl
    have hb2 : (pre ++ encArg 4 (clen vs)) ++ encL vs ++ post =
        pre ++ encC (.arr vs) ++ post := by simp [encC]
    rw [hb2] at hseq
    have hp : (((pre ++ encArg 4 (clen vs)).length : Nat) : Int) =
        ((pre.length + (encArg 4 (clen vs)).length : Nat) : Int) := by simp
    rw [hp] at hseq
    rw [hseq]
    have hfin : ((pre ++ encArg 4 (clen vs)).length + (encL vs).length : Nat) =
      (pre.length + (encC (.arr vs)).length : Nat) := by
      simp [encC]
      omega
    rw [hfin]
  | arrI vs =>
    obtain ⟨f, rfl⟩ : ∃ f, fuel = f + 1 :=
      ⟨fuel - 1, by simp [costC] at hf; omega⟩
    have hfl : costUB vs ≤ f := by simp [costC] at hf; omega
    have hvl : validL vs = true := by simpa [validC] using hv
    have hsl : smallL vs = true := by simpa [smallC] using hs
    have heq := readValue_indef 4 pre (encL vs ++ [255]) post f (by omega)
    have hb : pre ++ ((4 * 32 + 31) :: (encL vs ++ [255])) ++ post =
        pre ++ encC (.arrI vs) ++ post := by simp [encC]
    rw [hb] at heq
    rw [heq, if_pos (by simp)]
    have hub := readUB_enc vs (pre ++ [4 * 32 + 31]) post f hvl hsl hfl
    have hb2 : (pre ++ [4 * 32 + 31]) ++ encL vs ++ (255 :: post) =
        pre ++ encC (.arrI vs) ++ post := by simp [encC]
    rw [hb2] at hub
    have hp : (((pre ++ [4 * 32 + 31]).length : Nat) : Int) =
        (pre.length : Int) + 1 := by simp
    rw [hp] at hub
    rw [hub]
    have hfin : ((pre ++ [4 * 32 + 31]).length + (encL vs).length + 1 : Nat) =
      (pre.length + (encC (.arrI vs)).length : Nat) := by
      simp [encC]
      omega
    rw [hfin]
  | cmap ps =>
    obtain ⟨f, rfl⟩ : ∃ f, fuel = f + 1 :=
      ⟨fuel - 1, by simp [costC] at hf; omega⟩
    have hfl : costP ps ≤ f := by simp [costC] at hf; omega
    have hn : plen ps < 2 ^ 64 := by
      have := (by simpa [validC] using hv : plen ps < 2 ^ 64 ∧ validP ps = true)
      exact this.1
    have hvl : validP ps = true := by
      have := (by simpa [validC] using hv : plen ps < 2 ^ 64 ∧ validP ps = true)
      exact this.2
    have hsmall : plen ps < 2 ^ 31 ∧ smallP ps = true := by
      simpa [smallC] using hs
    obtain ⟨a, hav, heq⟩ := readValue_afterHead 5 (plen ps) pre (encP ps) post f
      (by omega) hn
    have hb : pre ++ (encArg 5 (plen ps) ++ encP ps) ++ post =
        pre ++ encC (.cmap ps) ++ post := by simp [encC]
    rw [hb] at heq
    rw [heq, if_neg (by simp), if_neg (by simp), if_neg (by simp), if_pos rfl]
    have haval : a = ((plen ps : Nat) : Int) := hav (Or.inl hsmall.1)
    rw [haval, Int.toNat_natCast]
    have hseq := readPairs_enc ps (pre ++ encArg 5 (plen ps)) post f hvl
      hsmall.2 hfl
    have hb2 : (pre ++ encArg 5 (plen ps)) ++ encP ps ++ post =
        pre ++ encC (.cmap ps) ++ post := by simp [encC]
    rw [hb2] at hseq
    have hp : (((pre ++ encArg 5 (plen ps)).length : Nat) : Int) =
        ((pre.length + (encArg 5 (plen ps)).length : Nat) : Int) := by simp
    rw [hp] at hseq
    rw [hseq]
    have hfin : ((pre ++ encArg 5 (plen ps)).length + (encP ps).length : Nat) =
      (pre.length + (encC (.cmap ps)).length : Nat) := by
      simp [encC]
      omega
    rw [hfin]
  | cmapI ps =>
    obtain ⟨f, rfl⟩ : ∃ f, fuel = f + 1 :=
      ⟨fuel - 1, by simp [costC] at hf; omega⟩
    have hfl : costPUB ps ≤ f := by simp [costC] at hf; omega
    have hvl : validP ps = true := by simpa [validC] using hv
    have hsl : smallP ps = true := by simpa [smallC] using hs
    have heq := readValue_indef 5 pre (encP ps ++ [255]) post f (by omega)
    have hb : pre ++ ((5 * 32 + 31) :: (encP ps ++ [255])) ++ post =
        pre ++ encC (.cmapI ps) ++ post := by simp [encC]
    rw [hb] at heq
    rw [heq, if_neg (by simp), if_pos rfl]
    have hub := readPUB_enc ps (pre ++ [5 * 32 + 31]) post f hvl hsl hfl
    have hb2 : (pre ++ [5 * 32 + 31]) ++ encP ps ++ (255 :: post) =
        pre ++ encC (.cmapI ps) ++ post := by simp [encC]
    rw [hb2] at hub
    have hp : (((pre ++ [5 * 32 + 31]).length : Nat) : Int) =
        (pre.length : Int) + 1 := by simp
    rw [hp] at hub
    rw [hub]
    have hfin : ((pre ++ [5 * 32 + 31]).length + (encP ps).length + 1 : Nat) =
      (pre.length + (encC (.cmapI ps)).length : Nat) := by
      simp [encC]
      omega
    rw [hfin]
  | tag t v =>
    obtain ⟨f, rfl⟩ : ∃ f, fuel = f + 1 :=
      ⟨fuel - 1, by simp [costC] at hf; omega⟩
    have hfv : costC v ≤ f := by simp [costC] at hf; omega
    have ht : t < 2 ^ 64 ∧ validC v = true := by simpa [validC] using hv
    have hsv : smallC v = true := by simpa [smallC] using hs
    obtain ⟨a, hav, heq⟩ := readValue_afterHead 6 t pre (encC v) post f
      (by omega) ht.1
    have hb : pre ++ (encArg 6 t ++ encC v) ++ post =
        pre ++ encC (.tag t v) ++ post := by simp [encC]
    rw [hb] at heq
    rw [heq, if_neg (by simp), if_neg (by simp), if_neg (by simp),
      if_neg (by simp), if_pos rfl]
    have hrv := readValue_enc v (pre ++ encArg 6 t) post f ht.2 hsv hfv
    have hb2 : (pre ++ encArg 6 t) ++ encC v ++ post =
        pre ++ encC (.tag t v) ++ post := by simp [encC]
    rw [hb2] at hrv
    have hp : (((pre ++ encArg 6 t).length : Nat) : Int) =
        ((pre.length + (encArg 6 t).length : Nat) : Int) := by simp
    rw [hp] at hrv
    rw [hrv]
    have hfin : ((pre ++ encArg 6 t).length + (encC v).length : Nat) =
        (pre.length + (encC (.tag t v)).length : Nat) := by
      simp [encC]
      omega
    rw [hfin]
  | simple n =>
    obtain ⟨f, rfl⟩ : ∃ f, fuel = f + 1 :=
      ⟨fuel - 1, by simp [costC] at hf; omega⟩
    have hn : n < 24 := by simpa [validC] using hv
    obtain ⟨a, hav, heq⟩ := readValue_afterHead 7 n pre [] post f (by omega)
      (by omega)
    have hb : pre ++ (encArg 7 n ++ []) ++ post =
        pre ++ encC (.simple n) ++ post := by simp [encC_simple n hn]
    rw [hb] at heq
    rw [heq, if_pos (by simp)]
    rw [encC_simple n hn]
  | simple8 n =>
    obtain ⟨f, rfl⟩ : ∃ f, fuel = f + 1 :=
      ⟨fuel - 1, by simp [costC] at hf; omega⟩
    have hn : 32 ≤ n ∧ n < 256 := by simpa [validC] using hv
    obtain ⟨a, hav, heq⟩ := readValue_afterHead 7 n pre [] post f (by omega)
      (by omega)
    have hb : pre ++ (encArg 7 n ++ []) ++ post =
        pre ++ encC (.simple8 n) ++ post := by
      simp [encC_simple8 n (by omega) hn.2]
    rw [hb] at heq
    rw [heq, if_pos (by simp)]
    rw [encC_simple8 n (by omega) hn.2]
  | float16 b1 b2 =>
    obtain ⟨f, rfl⟩ : ∃ f, fuel = f + 1 :=
      ⟨fuel - 1, by simp [costC] at hf; omega⟩
    have hsplit : pre ++ encC (.float16 b1 b2) ++ post =
        pre ++ (7 * 32 + 25) :: ([b1, b2] ++ post) := by simp [encC]
    have hg := getB_eq _ pre _ _ hsplit
    have hpos : ¬ ((pre.length : Int) ≥
        ((pre ++ encC (.float16 b1 b2) ++ post).length : Int)) := by
      simp only [hsplit, List.length_append, List.length_cons]
      push_cast
      omega
    rw [readValue_succ, if_neg hpos]
    simp only [hg, Option.getD_some]
    rw [show (7 * 32 + 25) / 32 = 7 from by omega,
      show (7 * 32 + 25) % 32 = 25 from by omega]
    rw [if_neg (by omega)]
    obtain ⟨a, ha⟩ := readArg_25 (pre ++ encC (.float16 b1 b2) ++ post)
      ((pre.length : Int) + 1)
    rw [ha]
    dsimp only
    rw [if_pos (by simp)]
    congr 1
  | float32 b1 b2 b3 b4 =>
    obtain ⟨f, rfl⟩ : ∃ f, fuel = f + 1 :=
      ⟨fuel - 1, by simp [costC] at hf; omega⟩
    have hsplit : pre ++ encC (.float32 b1 b2 b3 b4) ++ post =
        pre ++ (7 * 32 + 26) :: ([b1, b2, b3, b4] ++ post) := by simp [encC]
    have hg := getB_eq _ pre _ _ hsplit
    have hpos : ¬ ((pre.length : Int) ≥
        ((pre ++ encC (.float32 b1 b2 b3 b4) ++ post).length : Int)) := by
      simp only [hsplit, List.length_append, List.length_cons]
      push_cast
      omega
    rw [readValue_succ, if_neg hpos]
    simp only [hg, Option.getD_some]
    rw [show (7 * 32 + 26) / 32 = 7 from by omega,
      show (7 * 32 + 26) % 32 = 26 from by omega]
    rw [if_neg (by omega)]
    obtain ⟨a, ha⟩ := readArg_26 (pre ++ encC (.float32 b1 b2 b3 b4) ++ post)
      ((pre.length : Int) + 1)
    rw [ha]
    dsimp only
    rw [if_pos (by simp)]
    congr 1
  | float64 b1 b2 b3 b4 b5 b6 b7 b8 =>
    obtain ⟨f, rfl⟩ : ∃ f, fuel = f + 1 :=
      ⟨fuel - 1, by simp [costC] at hf; omega⟩
    have hsplit : pre ++ encC (.float64 b1 b2 b3 b4 b5 b6 b7 b8) ++ post =
        pre ++ (7 * 32 + 27) :: ([b1, b2, b3, b4, b5, b6, b7, b8] ++ post) := by
      simp [encC]
    have hg := getB_eq _ pre _ _ hsplit
    have hpos : ¬ ((pre.length : Int) ≥
        ((pre ++ encC (.float64 b1 b2 b3 b4 b5 b6 b7 b8) ++ post).length : Int)) := by
      simp only [hsplit, List.length_append, List.length_cons]
      push_cast
      omega
    rw [readValue_succ, if_neg hpos]
    simp only [hg, Option.getD_some]
    rw [show (7 * 32 + 27) / 32 = 7 from by omega,
      show (7 * 32 + 27) % 32 = 27 from by omega]
    rw [if_neg (by omega)]
    obtain ⟨a, ha⟩ := readArg_27 (pre ++ encC (.float64 b1 b2 b3 b4 b5 b6 b7 b8) ++ post)
      ((pre.length : Int) + 1) (by
        constructor
        · positivity
        · simp only [hsplit, List.length_append, List.length_cons]
          push_cast
          omega)
    rw [ha]
    dsimp only
    rw [if_pos (by simp)]
    congr 1

/-- `readSeq` over the encoded elements of a definite array. -/
theorem readSeq_enc (vs : CList) (pre post : List Nat) (fuel : Nat)
    (hv : validL vs = true) (hs : smallL vs = true) (hf : costL vs ≤ fuel) :
    readSeq fuel (pre ++ encL vs ++ post) (pre.length : Int) (clen vs) =
      .ok ((pre.length + (encL vs).length : Nat) : Int) := by
  cases vs with
  | nil =>
    rw [show clen .nil = 0 from rfl, readSeq_zero]
    simp [encL]
  | cons v vs =>
    obtain ⟨f, rfl⟩ : ∃ f, fuel = f + 1 :=
      ⟨fuel - 1, by simp [costL] at hf; omega⟩
    have hfv : costC v ≤ f ∧ costL vs ≤ f := by simp [costL] at hf; omega
    have hvv : validC v = true ∧ validL vs = true := by
      simpa [validL] using hv
    have hsv : smallC v = true ∧ smallL vs = true := by
      simpa [smallL] using hs
    rw [show clen (.cons v vs) = clen vs + 1 from rfl, readSeq_succ]
    have hrv := readValue_enc v pre (encL vs ++ post) f hvv.1 hsv.1 hfv.1
    have hb : pre ++ encC v ++ (encL vs ++ post) =
        pre ++ encL (.cons v vs) ++ post := by simp [encL]
    rw [hb] at hrv
    rw [hrv]
    dsimp only
    have hrs := readSeq_enc vs (pre ++ encC v) post f hvv.2 hsv.2 hfv.2
    have hb2 : (pre ++ encC v) ++ encL vs ++ post =
        pre ++ encL (.cons v vs) ++ post := by simp [encL]
    rw [hb2] at hrs
    have hp : (((pre ++ encC v).length : Nat) : Int) =
        ((pre.length + (encC v).length : Nat) : Int) := by simp
    rw [hp] at hrs
    rw [hrs]
    have hfin : ((pre ++ encC v).length + (encL vs).length : Nat) =
        (pre.length + (encL (.cons v vs)).length : Nat) := by
      simp [encL]
      omega
    rw [hfin]

/-- `readPairs` over the encoded entries of a definite map. -/
theorem readPairs_enc (ps : CPairs) (pre post : List Nat) (fuel : Nat)
    (hv : validP ps = true) (hs : smallP ps = true) (hf : costP ps ≤ fuel) :
    readPairs fuel (pre ++ encP ps ++ post) (pre.length : Int) (plen ps) =
      .ok ((pre.length + (encP ps).length : Nat) : Int) := by
  cases ps with
  | pnil =>
    rw [show plen .pnil = 0 from rfl, readPairs_zero]
    simp [encP]
  | pcons k v ps =>
    obtain ⟨f, rfl⟩ : ∃ f, fuel = f + 1 :=
      ⟨fuel - 1, by simp [costP] at hf; omega⟩
    have hfv : costC k ≤ f ∧ costC v ≤ f ∧ costP ps ≤ f := by
      simp [costP] at hf; omega
    have hvv : validC k = true ∧ validC v = true ∧ validP ps = true := by
      simpa [validP, and_assoc] using hv
    have hsv : smallC k = true ∧ smallC v = true ∧ smallP ps = true := by
      simpa [smallP, and_assoc] using hs
    rw [show plen (.pcons k v ps) = plen ps + 1 from rfl, readPairs_succ]
    have hrk := readValue_enc k pre (encC v ++ encP ps ++ post) f hvv.1 hsv.1
      hfv.1
    have hb : pre ++ encC k ++ (encC v ++ encP ps ++ post) =
        pre ++ encP (.pcons k v ps) ++ post := by simp [encP]
    rw [hb] at hrk
    rw [hrk]
    dsimp only
    have hrv := readValue_enc v (pre ++ encC k) (encP ps ++ post) f hvv.2.1
      hsv.2.1 hfv.2.1
    have hb2 : (pre ++ encC k) ++ encC v ++ (encP ps ++ post) =
        pre ++ encP (.pcons k v ps) ++ post := by simp [encP]
    rw [hb2] at hrv
    have hp : (((pre ++ encC k).length : Nat) : Int) =
        ((pre.length + (encC k).length : Nat) : Int) := by simp
    rw [hp] at hrv
    have hq : ((pre ++ encC k).length + (encC v).length : Nat) =
        pre.length + (encC k).length + (encC v).length := by simp
    rw [hq] at hrv
    rw [hrv]
    dsimp only
    have hrs := readPairs_enc ps (pre ++ encC k ++ encC v) post f hvv.2.2
      hsv.2.2 hfv.2.2
    have hb3 : (pre ++ encC k ++ encC v) ++ encP ps ++ post =
        pre ++ encP (.pcons k v ps) ++ post := by simp [encP]
    rw [hb3] at hrs
    have hp2 : ((pre ++ encC k ++ encC v).length : Nat) =
        pre.length + (encC k).length + (encC v).length := by simp; omega
    rw [hp2] at hrs
    rw [hrs]
    have hfin : (pre.length + (encC k).length + (encC v).length +
        (encP ps).length : Nat) =
      (pre.length + (encP (.pcons k v ps)).length : Nat) := by
      simp [encP]
      omega
    rw [hfin]

/-- `readUntilBreak` over the encoded elements of an indefinite array
followed by the break byte. -/
theorem readUB_enc (vs : CList) (pre post : List Nat) (fuel : Nat)
    (hv : validL vs = true) (hs : smallL vs = true) (hf : costUB vs ≤ fuel) :
    readUntilBreak fuel (pre ++ encL vs ++ (255 :: post)) (pre.length : Int) =
      .ok ((pre.length + (encL vs).length + 1 : Nat) : Int) := by
  cases vs with
  | nil =>
    obtain ⟨f, rfl⟩ : ∃ f, fuel = f + 1 :=
      ⟨fuel - 1, by simp [costUB] at hf; omega⟩
    have hg : getB (pre ++ encL .nil ++ (255 :: post)) (pre.length : Int) =
        some 255 := by
      apply getB_eq _ pre post
      simp [encL]
    rw [readUntilBreak_succ, if_pos (by rw [hg])]
    simp [encL]
  | cons v vs =>
    obtain ⟨f, rfl⟩ : ∃ f, fuel = f + 1 :=
      ⟨fuel - 1, by simp [costUB] at hf; omega⟩
    have hfv : costC v ≤ f ∧ costUB vs ≤ f := by simp [costUB] at hf; omega
    have hvv : validC v = true ∧ validL vs = true := by simpa [validL] using hv
    have hsv : smallC v = true ∧ smallL vs = true := by simpa [smallL] using hs
    obtain ⟨b, rest, hbr, hblt⟩ := encC_head v hvv.1
    have hg : getB (pre ++ encL (.cons v vs) ++ (255 :: post))
        (pre.length : Int) = some b := by
      apply getB_eq _ pre (rest ++ encL vs ++ 255 :: post)
      simp [encL, hbr]
    rw [readUntilBreak_succ, if_neg (by
      rw [hg]
      simp only [Option.some.injEq]
      omega)]
    have hrv := readValue_enc v pre (encL vs ++ (255 :: post)) f hvv.1 hsv.1
      hfv.1
    have hb : pre ++ encC v ++ (encL vs ++ (255 :: post)) =
        pre ++ encL (.cons v vs) ++ (255 :: post) := by simp [encL]
    rw [hb] at hrv
    rw [hrv]
    dsimp only
    have hrs := readUB_enc vs (pre ++ encC v) post f hvv.2 hsv.2 hfv.2
    have hb2 : (pre ++ encC v) ++ encL vs ++ (255 :: post) =
        pre ++ encL (.cons v vs) ++ (255 :: post) := by simp [encL]
    rw [hb2] at hrs
    have hp : (((pre ++ encC v).length : Nat) : Int) =
        ((pre.length + (encC v).length : Nat) : Int) := by simp
    rw [hp] at hrs
    rw [hrs]
    have hfin : ((pre ++ encC v).length + (encL vs).length + 1 : Nat) =
      (pre.length + (encL (.cons v vs)).length + 1 : Nat) := by
      simp [encL]
      omega
    rw [hfin]

/-- `readPairsUntilBreak` over the encoded entries of an indefinite map
followed by the break byte. -/
theorem readPUB_enc (ps : CPairs) (pre post : List Nat) (fuel : Nat)
    (hv : validP ps = true) (hs : smallP ps = true) (hf : costPUB ps ≤ fuel) :
    readPairsUntilBreak fuel (pre ++ encP ps ++ (255 :: post))
      (pre.length : Int) =
      .ok ((pre.length + (encP ps).length + 1 : Nat) : Int) := by
  cases ps with
  | pnil =>
    obtain ⟨f, rfl⟩ : ∃ f, fuel = f + 1 :=
      ⟨fuel - 1, by simp [costPUB] at hf; omega⟩
    have hg : getB (pre ++ encP .pnil ++ (255 :: post)) (pre.length : Int) =
        some 255 := by
      apply getB_eq _ pre post
      simp [encP]
    rw [readPairsUntilBreak_succ, if_pos (by rw [hg])]
    simp [encP]
  | pcons k v ps =>
    obtain ⟨f, rfl⟩ : ∃ f, fuel = f + 1 :=
      ⟨fuel - 1, by simp [costPUB] at hf; omega⟩
    have hfv : costC k ≤ f ∧ costC v ≤ f ∧ costPUB ps ≤ f := by
      simp [costPUB] at hf; omega
    have hvv : validC k = true ∧ validC v = true ∧ validP ps = true := by
      simpa [validP, and_assoc] using hv
    have hsv : smallC k = true ∧ smallC v = true ∧ smallP ps = true := by
      simpa [smallP, and_assoc] using hs
    obtain ⟨b, rest, hbr, hblt⟩ := encC_head k hvv.1
    have hg : getB (pre ++ encP (.pcons k v ps) ++ (255 :: post))
        (pre.length : Int) = some b := by
      apply getB_eq _ pre (rest ++ encC v ++ encP ps ++ 255 :: post)
      simp [encP, hbr]
    rw [readPairsUntilBreak_succ, if_neg (by
      rw [hg]
      simp only [Option.some.injEq]
      omega)]
    have hrk := readValue_enc k pre (encC v ++ encP ps ++ (255 :: post)) f
      hvv.1 hsv.1 hfv.1
    have hb : pre ++ encC k ++ (encC v ++ encP ps ++ (255 :: post)) =
        pre ++ encP (.pcons k v ps) ++ (255 :: post) := by simp [encP]
    rw [hb] at hrk
    rw [hrk]
    dsimp only
    have hrv := readValue_enc v (pre ++ encC k) (encP ps ++ (255 :: post)) f
      hvv.2.1 hsv.2.1 hfv.2.1
    have hb2 : (pre ++ encC k) ++ encC v ++ (encP ps ++ (255 :: post)) =
        pre ++ encP (.pcons k v ps) ++ (255 :: post) := by simp [encP]
    rw [hb2] at hrv
    have hp : (((pre ++ encC k).length : Nat) : Int) =
        ((pre.length + (encC k).length : Nat) : Int) := by simp
    rw [hp] at hrv
    have hq : ((pre ++ encC k).length + (encC v).length : Nat) =
        pre.length + (encC k).length + (encC v).length := by simp
    rw [hq] at hrv
    rw [hrv]
    dsimp only
    have hrs := readPUB_enc ps (pre ++ encC k ++ encC v) post f hvv.2.2
      hsv.2.2 hfv.2.2
    have hb3 : (pre ++ encC k ++ encC v) ++ encP ps ++ (255 :: post) =
        pre ++ encP (.pcons k v ps) ++ (255 :: post) := by simp [encP]
    rw [hb3] at hrs
    have hp2 : ((pre ++ encC k ++ encC v).length : Nat) =
        pre.length + (encC k).length + (encC v).length := by simp; omega
    rw [hp2] at hrs
    rw [hrs]
    have hfin : (pre.length + (encC k).length + (encC v).length +
        (encP ps).length + 1 : Nat) =
      (pre.length + (encP (.pcons k v ps)).length + 1 : Nat) := by
      simp [encP]
      omega
    rw [hfin]

end

/-! ### Claim C1: the frame split on encoded header + body -/

/-- Slicing an append at exactly the first part's length recovers the
first part. -/
theorem jsSliceTo_exact (l1 l2 : List Nat) :
    jsSliceTo (l1 ++ l2) ((l1.length : Nat) : Int) = l1 := by
  unfold jsSliceTo
  dsimp only
  rw [if_neg (by omega)]
  have h1 : (min ((l1.length : Nat) : Int) (((l1 ++ l2).length : Nat) : Int)).toNat
      = l1.length := by
    simp only [List.length_append]
    omega
  rw [h1, List.take_left]

/-- Slicing an append from exactly the first part's length recovers the
second part. -/
theorem jsSliceFrom_exact (l1 l2 : List Nat) :
    jsSliceFrom (l1 ++ l2) ((l1.length : Nat) : Int) = l2 := by
  unfold jsSliceFrom
  dsimp only
  rw [if_neg (by omega)]
  have h1 : (min ((l1.length : Nat) : Int) (((l1 ++ l2).length : Nat) : Int)).toNat
      = l1.length := by
    simp only [List.length_append]
    omega
  rw [h1, List.drop_left]

/-- Splitting after a successful boundary scan yields the two slices. -/
theorem decodeSplit_ok (fuel : Nat) (bytes : List Nat) (b : Int)
    (h : findCborBoundary fuel bytes = JsRes.ok b) :
    decodeFirehoseFrameSplit fuel bytes =
      some (jsSliceTo bytes b, jsSliceFrom bytes b) := by
  unfold decodeFirehoseFrameSplit
  rw [h]

/-- The length of a head slice at a negative boundary. -/
theorem jsSliceTo_neg_len (bytes : List Nat) (b : Int) (hb : b < 0) :
    (jsSliceTo bytes b).length =
      min (max ((bytes.length : Int) + b) 0).toNat bytes.length := by
  unfold jsSliceTo
  dsimp only
  rw [if_pos hb, List.length_take]

/-- claim C1 (corrected): for every header/body pair of well-formed CBOR
values in which every definite string length and every definite array/map
count is below `2 ^ 31`, the boundary scan of `decodeFirehoseFrame` stops
exactly at the end of the header's encoding, so the split recovers the
original header bytes and body bytes — including indefinite-length
strings, arrays and maps.  The `2 ^ 31` restriction is forced by the
32-bit signed length read; see the counterexample. -/
theorem claim_C1_roundtrip (h b : CVal) (fuel : Nat)
    (hvh : validC h = true) (hsh : smallC h = true)
    (hvb : validC b = true) (hsb : smallC b = true)
    (hf : costC h ≤ fuel) :
    decodeFirehoseFrameSplit fuel (encC h ++ encC b) =
      some (encC h, encC b) := by
  have hrv := readValue_enc h [] (encC b) fuel hvh hsh hf
  rw [List.nil_append] at hrv
  simp only [List.length_nil, Nat.zero_add] at hrv
  unfold decodeFirehoseFrameSplit findCborBoundary
  rw [show ((0 : Nat) : Int) = (0 : Int) from rfl] at hrv
  rw [hrv]
  dsimp only
  rw [jsSliceTo_exact, jsSliceFrom_exact]

/-- Concrete witness header: an indefinite-length map whose value is a
chunked indefinite-length byte string. -/
def c1wh : CVal := CVal.cmapI (.pcons (.uint 1) (.bstrI [[170], []]) .pnil)

/-- Concrete witness body: an indefinite-length array holding a text
string and a two-byte unsigned integer. -/
def c1wb : CVal := CVal.arrI (.cons (.tstr [97]) (.cons (.uint 1000) .nil))

/-- claim C1 witness: a concrete indefinite-length header and body pair
round-trips through the split. -/
theorem claim_C1_witness :
    validC c1wh = true ∧ smallC c1wh = true ∧ validC c1wb = true ∧
    smallC c1wb = true ∧ costC c1wh ≤ 12 ∧
    decodeFirehoseFrameSplit 12 (encC c1wh ++ encC c1wb) =
      some (encC c1wh, encC c1wb) :=
  ⟨by decide, by decide, by decide, by decide, by decide,
    claim_C1_roundtrip c1wh c1wb 12 (by decide) (by decide) (by decide)
      (by decide) (by decide)⟩

/-- The byte string of `2 ^ 31` zero bytes: well-formed CBOR whose
four-byte length field reads back as the 32-bit signed value `-2 ^ 31`. -/
def c1cex : CVal := CVal.bstr (List.replicate (2 ^ 31) 0)

theorem encC_c1cex :
    encC c1cex = 90 :: 128 :: 0 :: 0 :: 0 :: List.replicate (2 ^ 31) 0 := by
  show encArg 2 (List.replicate (2 ^ 31) (0 : Nat)).length ++
      List.replicate (2 ^ 31) 0 = _
  rw [List.length_replicate]
  have harg : encArg 2 (2 ^ 31) = [90, 128, 0, 0, 0] := by decide
  rw [harg]
  rfl

/-- Length of five cons cells over any tail. -/
theorem length_cons5 (a b c d e : Nat) (t : List Nat) :
    (a :: b :: c :: d :: e :: t).length = t.length + 5 := by
  simp only [List.length_cons]

theorem c1cex_len : (encC c1cex).length = 2 ^ 31 + 5 :=
  (congrArg List.length encC_c1cex).trans
    ((length_cons5 90 128 0 0 0 (List.replicate (2 ^ 31) 0)).trans
      (congrArg (fun n => n + 5) (List.length_replicate _ _)))

theorem c1b_len : (encC c1cex ++ encC (CVal.uint 0)).length = 2 ^ 31 + 6 := by
  have h1 : (encC c1cex ++ encC (CVal.uint 0)).length =
      (encC c1cex).length + (encC (CVal.uint 0)).length := List.length_append _ _
  have h2 : (encC (CVal.uint 0)).length = 1 := rfl
  have h3 := c1cex_len
  omega

theorem c1cex_valid : validC c1cex = true := by
  show (decide ((List.replicate (2 ^ 31) (0 : Nat)).length < 2 ^ 64) &&
      (List.replicate (2 ^ 31) (0 : Nat)).all byteOk) = true
  rw [Bool.and_eq_true]
  constructor
  · rw [decide_eq_true_eq, List.length_replicate]
    omega
  · rw [List.all_eq_true]
    intro x hx
    rw [List.eq_of_mem_replicate hx]
    rfl

set_option maxRecDepth 8192 in
theorem c1cex_boundary :
    findCborBoundary 10 (encC c1cex ++ encC (CVal.uint 0)) =
      JsRes.ok (5 - 2 ^ 31) := by
  have hsplit : encC c1cex ++ encC (CVal.uint 0) =
      [] ++ 90 :: (128 :: 0 :: 0 :: 0 ::
        (List.replicate (2 ^ 31) 0 ++ encC (CVal.uint 0))) := by
    rw [encC_c1cex]
    simp only [List.cons_append, List.nil_append]
  have hsplit2 : encC c1cex ++ encC (CVal.uint 0) =
      [] ++ [90, 128, 0, 0, 0] ++
        (List.replicate (2 ^ 31) 0 ++ encC (CVal.uint 0)) := by
    rw [encC_c1cex]
    simp only [List.cons_append, List.nil_append]
  have hg0 : getB (encC c1cex ++ encC (CVal.uint 0)) 0 = some 90 :=
    getB_eq _ [] _ 90 hsplit
  have hg1 : getB (encC c1cex ++ encC (CVal.uint 0)) (0 + 1) = some 128 :=
    getB_split _ [] [90, 128, 0, 0, 0]
      (List.replicate (2 ^ 31) 0 ++ encC (CVal.uint 0))
      [90] [0, 0, 0] 128 1 hsplit2 rfl rfl
  have hg2 : getB (encC c1cex ++ encC (CVal.uint 0)) (0 + 1 + 1) = some 0 :=
    getB_split _ [] [90, 128, 0, 0, 0]
      (List.replicate (2 ^ 31) 0 ++ encC (CVal.uint 0))
      [90, 128] [0, 0] 0 2 hsplit2 rfl rfl
  have hg3 : getB (encC c1cex ++ encC (CVal.uint 0)) (0 + 1 + 2) = some 0 :=
    getB_split _ [] [90, 128, 0, 0, 0]
      (List.replicate (2 ^ 31) 0 ++ encC (CVal.uint 0))
      [90, 128, 0] [0] 0 3 hsplit2 rfl rfl
  have hg4 : getB (encC c1cex ++ encC (CVal.uint 0)) (0 + 1 + 3) = some 0 :=
    getB_split _ [] [90, 128, 0, 0, 0]
      (List.replicate (2 ^ 31) 0 ++ encC (CVal.uint 0))
      [90, 128, 0, 0] [] 0 4 hsplit2 rfl rfl
  have harg : readArg (encC c1cex ++ encC (CVal.uint 0)) (0 + 1) 26 =
      some (-(2 ^ 31 : Int), 0 + 1 + 4) := by
    unfold readArg
    rw [if_neg (by omega), if_neg (by omega), if_neg (by omega), if_pos rfl]
    rw [hg1, hg2, hg3, hg4]
    rfl
  show readValue (9 + 1) (encC c1cex ++ encC (CVal.uint 0)) 0 =
    JsRes.ok (5 - 2 ^ 31)
  rw [readValue_succ]
  rw [if_neg (by rw [c1b_len]; omega)]
  simp only [hg0, Option.getD_some]
  rw [harg]
  rw [if_neg (by norm_num)]
  dsimp only
  rw [if_neg (by norm_num), if_pos (by norm_num)]
  have hfin : (0 + 1 + 4 + -(2 ^ 31 : Int)) = 5 - 2 ^ 31 := by omega
  rw [hfin]

set_option maxRecDepth 8192 in
/-- claim C1 counterexample: the header `c1cex` (a byte string of
`2 ^ 31` bytes, encoded in `2 ^ 31 + 5` bytes) is well-formed CBOR, yet
the 32-bit signed read of its length field makes `findCborBoundary`
return the negative boundary `5 - 2 ^ 31` instead of the header length,
and the split does not recover the header and body encodings. -/
theorem claim_C1_counterexample :
    validC c1cex = true ∧ validC (CVal.uint 0) = true ∧
    (encC c1cex).length = 2 ^ 31 + 5 ∧
    findCborBoundary 10 (encC c1cex ++ encC (CVal.uint 0)) =
      JsRes.ok (5 - 2 ^ 31) ∧
    decodeFirehoseFrameSplit 10 (encC c1cex ++ encC (CVal.uint 0)) ≠
      some (encC c1cex, encC (CVal.uint 0)) := by
  refine ⟨c1cex_valid, by decide, c1cex_len, c1cex_boundary, ?_⟩
  intro hcontra
  have hsplitEq := decodeSplit_ok 10 (encC c1cex ++ encC (CVal.uint 0))
    (5 - 2 ^ 31) c1cex_boundary
  rw [hsplitEq, Option.some.injEq, Prod.mk.injEq] at hcontra
  have h2 := congrArg List.length hcontra.1
  rw [jsSliceTo_neg_len (encC c1cex ++ encC (CVal.uint 0)) (5 - 2 ^ 31)
    (by omega)] at h2
  rw [c1b_len, c1cex_len] at h2
  omega

/-! ### Claim C2: a malformed input on which the boundary scan diverges -/

/-- The six malformed bytes `9f 5a ff ff ff fb`: an indefinite-length
array start followed by a byte-string head whose four length bytes read
back as the 32-bit signed value `-5`. -/
def c2loop : List Nat := [159, 90, 255, 255, 255, 251]

/-- One walker step at position 1 of `c2loop` returns the cursor to
position 1: the head occupies 5 bytes and the negative length `-5`
cancels them exactly. -/
theorem c2_step (g : Nat) : readValue (g + 1) c2loop 1 = .ok 1 := rfl

/-- The until-break loop at position 1 of `c2loop` never terminates at
any fuel. -/
theorem c2_loop_spin : ∀ g : Nat, readUntilBreak g c2loop 1 = JsRes.spin
  | 0 => rfl
  | 1 => rfl
  | g + 2 => by
    show readUntilBreak ((g + 1) + 1) c2loop 1 = JsRes.spin
    rw [readUntilBreak_succ, if_neg (by decide), c2_step g]
    exact c2_loop_spin (g + 1)

/-- claim C2: REFUTED (code bug).  On the malformed six-byte input
`9f 5a ff ff ff fb`, the boundary scan of `decodeFirehoseFrame` never
terminates, for any amount of fuel: the byte-string head's 32-bit signed
length `-5` moves the cursor back to its own start, so the
`while (bytes[pos] !== 0xff)` loop of `findCborBoundary` spins forever,
and `decodeFirehoseFrame` neither returns `null` nor throws — it
diverges. -/
theorem claim_C2_nontermination (fuel : Nat) :
    findCborBoundary fuel c2loop = JsRes.spin := by
  cases fuel with
  | zero => rfl
  | succ f =>
    show readValue (f + 1) c2loop 0 = JsRes.spin
    rw [readValue_succ, if_neg (by decide)]
    show readUntilBreak f c2loop (0 + 1) = JsRes.spin
    rw [show ((0 : Int) + 1) = 1 from rfl]
    exact c2_loop_spin f

end Cbor

end Sonde
